import Mathlib

/-!
Verification development for the bgraph build-definition parser and
dependency-graph builder (Soong/Android.bp analyzer).

The development shallowly embeds the Python sources:
  * src/bgraph/parsers/soong_parser.py  (SoongParser and SoongFileParser)
  * src/bgraph/builder/graph.py         (compute_file_list, convert_section)
  * src/bgraph/utils.py                 (recurse)

Python dicts are modelled as insertion-ordered association lists
(first occurrence wins on lookup, as keys of a Python dict are unique),
Python values as the tagged union Value below, and fallible code returns
Option/Except.  Functions that the Python code runs with unbounded
recursion are given an explicit fuel argument; running out of fuel models
the Python recursion not reaching a result.
-/

set_option autoImplicit false

/-- Tagged union mirroring the dynamic values that flow through the parser:
Python bool, int, str, pathlib.Path, list and dict (cf. the Value data
model of the spec; Path covers the metadata keys the parser adds). -/
inductive Value where
  | vBool (b : Bool)
  | vInt (n : Int)
  | vStr (s : String)
  | vPath (p : String)
  | vList (elems : List Value)
  | vDict (entries : List (String × Value))
  deriving Repr

/-- A Python dict with string keys, as an insertion-ordered association
list with unique keys (uniqueness is stated as a hypothesis where
needed). -/
abbrev PyDict := List (String × Value)

/-- Lookup in a Python dict (d.get(key) / d[key]). -/
def dictLookup : PyDict → String → Option Value
  | [], _ => none
  | (k, v) :: rest, key => if k = key then some v else dictLookup rest key

/-- Assignment d[key] = v on a Python dict: an existing key keeps its
position and gets the new value, a new key is appended at the end. -/
def dictInsert : PyDict → String → Value → PyDict
  | [], key, v => [(key, v)]
  | (k, w) :: rest, key, v =>
    if k = key then (k, v) :: rest else (k, w) :: dictInsert rest key v

/-- Deletion del d[key] on a Python dict (removes the first — hence, for a
dict, the only — binding of the key; no-op when the key is absent). -/
def dictDelete : PyDict → String → PyDict
  | [], _ => []
  | (k, w) :: rest, key => if k = key then rest else (k, w) :: dictDelete rest key

/-- The ordered key list of a dict. -/
def dkeys (d : PyDict) : List String := d.map Prod.fst

/-- Well-formedness of a dict: its keys are pairwise distinct, as Python
dict keys always are. -/
def keysDistinct (d : PyDict) : Prop := (dkeys d).Nodup

/-- Python list(x) on a Value: a list yields its elements, a string its
characters (as one-character strings), a dict its keys; bool, int and
Path are not iterable (TypeError), modelled as none. -/
def pyIter : Value → Option (List Value)
  | .vList l => some l
  | .vStr s => some (s.data.map (fun c => Value.vStr (String.singleton c)))
  | .vDict d => some (d.map (fun kv => Value.vStr kv.1))
  | _ => none

mutual

/-- Embedding of recursive_merge(mapping, local_key, local_val) from
SoongParser._merge_section (soong_parser.py lines 469-485).  The Python
function mutates mapping in place; here the updated mapping is returned,
and none models an uncaught TypeError (list(x) on a non-iterable, or
iterating a non-empty child dict over a non-dict base value, which in
Python fails on the string/list item access or assignment). -/
def rMerge (m : PyDict) (key : String) (v : Value) : Option PyDict :=
  match dictLookup m key with
  | none => some (dictInsert m key v)
  | some old =>
    match v with
    | .vStr _ => some (dictInsert m key v)
    | .vBool _ => some (dictInsert m key v)
    | .vInt _ => some (dictInsert m key v)
    | .vList l =>
      match pyIter old with
      | some ext => some (dictInsert m key (.vList (l ++ ext)))
      | none => none
    | .vDict d =>
      match old with
      | .vDict inner =>
        match mergeInto inner d with
        | some inner2 => some (dictInsert m key (.vDict inner2))
        | none => none
      | _ => if d.isEmpty then some m else none
    | .vPath _ => some (dictInsert m key v)

/-- Folds recursive_merge over a sequence of key/value pairs, as the
loop for key, val in section_map.items() does (and as the nested-dict
branch of recursive_merge does for local_val.items()). -/
def mergeInto (base : PyDict) (entries : PyDict) : Option PyDict :=
  match entries with
  | [] => some base
  | (k, v) :: rest =>
    match rMerge base k v with
    | some base2 => mergeInto base2 rest
    | none => none

end

/-- Embedding of SoongParser._merge_section(section_map, default_map)
(soong_parser.py lines 455-491): the default map is deep-copied (identity
on immutable values) and every entry of the section (child) map is merged
into the copy. -/
def mergeSection (sectionMap defaultMap : PyDict) : Option PyDict :=
  mergeInto defaultMap sectionMap

/-- The per-key conflict resolution performed by recursive_merge when the
key is present in the base map: child scalars and Paths win, a child list
is prepended to list(base value), child dicts merge recursively into a
dict base value; a non-empty child dict over a non-dict base value is a
TypeError, an empty child dict leaves the base value. -/
def combine (v old : Value) : Option Value :=
  match v with
  | .vList l => (pyIter old).map (fun ext => Value.vList (l ++ ext))
  | .vDict d =>
    match old with
    | .vDict inner => (mergeInto inner d).map Value.vDict
    | _ => if d.isEmpty then some old else none
  | _ => some v

/-- Pointwise description of the merge of a child map into a base map:
the base entries in base order (conflicting keys combined), then the
child-only entries in child order. -/
def mSpec (child base : PyDict) : Option PyDict :=
  match base.mapM (fun kv =>
      match dictLookup child kv.1 with
      | some v => (combine v kv.2).map (fun w => (kv.1, w))
      | none => some kv) with
  | none => none
  | some processed =>
    some (processed ++ child.filter (fun kv => (dictLookup base kv.1).isNone))

/-- True when the value is a Python list. -/
def isListV : Value → Bool
  | .vList _ => true
  | _ => false

/-- True when the value is a Python dict. -/
def isDictV : Value → Bool
  | .vDict _ => true
  | _ => false

/-- A child/base value pair is a type combination not covered by the
scalar rule, the sequence/sequence rule, or the map/map rule of the
spec's merge description exactly when the two values are not both lists
and not both dicts (for scalar child values the code overwrites without
inspecting the base, so those pairs behave like the scalar rule). -/
def typeClash (v old : Value) : Bool :=
  !(isListV v && isListV old) && !(isDictV v && isDictV old)

/-- What recursive_merge actually does on a conflicting key whose type
combination is not covered by the like-for-like rules: scalar and Path
child values overwrite; a child list is concatenated with the iteration
of the base value (characters of a string, keys of a dict) and is a
TypeError on a non-iterable base; a non-empty child dict is a TypeError,
an empty child dict keeps the base value. -/
def mismatchMergeSpec (m : PyDict) (key : String) (v old : Value) : Option PyDict :=
  match v with
  | .vList l => (pyIter old).map (fun ext => dictInsert m key (.vList (l ++ ext)))
  | .vDict d => if d.isEmpty then some m else none
  | _ => some (dictInsert m key v)

/-- Pointwise value of the merge of a child map into a base map at one
key: a key present on both sides is combined, a key present on one side
keeps that side's value. -/
def mergedLookup (child base : PyDict) (key : String) : Option Value :=
  match dictLookup child key, dictLookup base key with
  | some v, some bv => combine v bv
  | some v, none => some v
  | none, ob => ob

/-- A pair of maps has a merge conflict when some key carries values on
both sides whose combination raises a TypeError. -/
def mergeConflict (child base : PyDict) : Prop :=
  ∃ k v bv, dictLookup child k = some v ∧ dictLookup base k = some bv ∧ combine v bv = none

/-- SoongParser.SECTION_TYPE: dict key that carries the type of a parsed
section. -/
def sectionTypeKey : String := "soong_parser_section_type"

/-- SoongParser.SECTION_PROJECT: dict key carrying the project name. -/
def sectionProjectKey : String := "soong_parser_section_project"

/-- SoongParser.SECTION_PROJECT_PATH: dict key carrying the project root
path. -/
def sectionProjectPathKey : String := "soong_parser_project_path"

/-- SoongParser.SOONG_FILE: dict key carrying the path of the build file
the section came from. -/
def soongFileKey : String := "soong_parser_soong_path"

/-- SoongParser.sections / SoongFileParser.sections: a dict mapping a
section name to the ordered list of its parsed variants (Python
defaultdict(list)). -/
abbrev Sections := List (String × List PyDict)

/-- Lookup in the sections dict (self.sections.get(name)). -/
def secLookup : Sections → String → Option (List PyDict)
  | [], _ => none
  | (n, l) :: rest, name => if n = name then some l else secLookup rest name

/-- self.sections[name].append(sdict) on a defaultdict(list): appends to
the existing entry, or creates a new entry at the end of the dict. -/
def secAppend : Sections → String → PyDict → Sections
  | [], name, s => [(name, [s])]
  | (n, l) :: rest, name, s =>
    if n = name then (n, l ++ [s]) :: rest else (n, l) :: secAppend rest name s

/-- self.sections[name] = l: replaces the entry for an existing name
(appends a new entry otherwise, as a Python defaultdict would create
one). -/
def secUpdate : Sections → String → List PyDict → Sections
  | [], name, l => [(name, l)]
  | (n, l0) :: rest, name, l =>
    if n = name then (n, l) :: rest else (n, l0) :: secUpdate rest name l

/-- Failure modes of the file parser: BGraphParserException (raised by
the parse actions and caught by SoongParser.parse_file) versus an
uncaught Python TypeError, which would escape parse_file. -/
inductive PErr where
  | parserException
  | typeError
  deriving Repr, DecidableEq

/-- One top-level statement of a build-definition file, at the level the
pyparsing grammar delivers it to the parse actions: a section definition
with its field list in source order (values already evaluated), a
variable assignment, or a variable append.  Value-level evaluation
(variable references, concatenation) happens before these actions run
and is not re-modelled here. -/
inductive Statement where
  | sectionDef (ty : String) (fields : List (String × Value))
  | varDef (name : String) (value : Value)
  | varAppend (name : String) (value : Value)

/-- Mutable state of a SoongFileParser: self.variables (aliasing the
project-wide scope passed in), self.identifiers, self.sections. -/
structure PState where
  vScope : PyDict
  idents : PyDict
  secs : Sections

/-- Discriminator for Python type(x) comparisons between parsed
values. -/
def valueTag : Value → Nat
  | .vBool _ => 0
  | .vInt _ => 1
  | .vStr _ => 2
  | .vPath _ => 3
  | .vList _ => 4
  | .vDict _ => 5

/-- Python + on two parsed values: string, list, and int concatenation
or addition succeed; True/False add as integers; any other pairing is a
TypeError. -/
def pyAdd : Value → Value → Option Value
  | .vStr a, .vStr b => some (.vStr (a ++ b))
  | .vList a, .vList b => some (.vList (a ++ b))
  | .vInt a, .vInt b => some (.vInt (a + b))
  | .vBool a, .vBool b => some (.vInt ((if a then 1 else 0) + (if b then 1 else 0)))
  | _, _ => none

/-- Embedding of SoongFileParser.parse_variable_def (soong_parser.py
lines 572-606).  Plain assignment overwrites (a conflicting redefinition
is only logged); append fails with BGraphParserException when the
variable has no previous value, coerces a bare string operand to a
one-element list when the two container kinds differ, and concatenates
with Python +. -/
def parseVariableDef (vars : PyDict) (name : String) (newValue : Value)
    (append : Bool) : Except PErr PyDict :=
  if append then
    match dictLookup vars name with
    | none => .error .parserException
    | some actual =>
      if valueTag newValue = valueTag actual then
        match pyAdd actual newValue with
        | some v => .ok (dictInsert vars name v)
        | none => .error .typeError
      else
        let n2 := match newValue with
          | .vStr _ => Value.vList [newValue]
          | x => x
        let a2 := match actual with
          | .vStr _ => Value.vList [actual]
          | x => x
        match pyAdd a2 n2 with
        | some v => .ok (dictInsert vars name v)
        | none => .error .typeError
  else .ok (dictInsert vars name newValue)

/-- Inserting a list of key/value pairs into a dict in order, as the
parse_section_field actions populate self.identifiers while a section
body is parsed (a duplicated field name overwrites). -/
def insertAll (m : PyDict) (fields : List (String × Value)) : PyDict :=
  fields.foldl (fun acc kv => dictInsert acc kv.1 kv.2) m

/-- The token-consumption loop of SoongFileParser.parse_section
(soong_parser.py lines 689-703): each field-name token is looked up in
self.identifiers and removed; the field called name becomes the section
name, every other field goes into the section dict; a token with no
identifier entry (a duplicated field name) raises
BGraphParserException. -/
def consumeTokens : PyDict → Option Value → PyDict → List String →
    Option (PyDict × Option Value × PyDict)
  | idents, nameOpt, sdict, [] => some (idents, nameOpt, sdict)
  | idents, nameOpt, sdict, t :: rest =>
    match dictLookup idents t with
    | some v =>
      let idents2 := dictDelete idents t
      if t = "name" then consumeTokens idents2 (some v) sdict rest
      else consumeTokens idents2 nameOpt (dictInsert sdict t v) rest
    | none => none

/-- Embedding of SoongFileParser.parse_section (soong_parser.py lines
681-714).  The section dict starts with the section-type key; after the
tokens are consumed, a section with no name field is silently dropped if
its stored type equals soong_namespace and raises BGraphParserException
otherwise; a named section is appended to self.sections.  A non-string
name value is modelled as a type error (Python would key the sections
dict by the raw value; section names are strings in this model). -/
def parseSection (st : PState) (ty : String) (fields : List (String × Value)) :
    Except PErr PState :=
  let idents := insertAll st.idents fields
  let tokens := fields.map Prod.fst
  match consumeTokens idents none [(sectionTypeKey, Value.vStr ty)] tokens with
  | none => .error .parserException
  | some (idents2, nameOpt, sdict) =>
    match nameOpt with
    | none =>
      match dictLookup sdict sectionTypeKey with
      | some (.vStr t) =>
        if t = "soong_namespace" then .ok { st with idents := idents2 }
        else .error .parserException
      | _ => .error .parserException
    | some nameVal =>
      match nameVal with
      | .vStr s =>
        .ok { st with idents := idents2, secs := secAppend st.secs s sdict }
      | _ => .error .typeError

/-- Dispatch of one parsed top-level statement to its parse action. -/
def parseStatement (st : PState) : Statement → Except PErr PState
  | .sectionDef ty fields => parseSection st ty fields
  | .varDef n v =>
    match parseVariableDef st.vScope n v false with
    | .ok vars2 => .ok { st with vScope := vars2 }
    | .error e => .error e
  | .varAppend n v =>
    match parseVariableDef st.vScope n v true with
    | .ok vars2 => .ok { st with vScope := vars2 }
    | .error e => .error e

/-- Runs the parse actions of a file's statements in order, stopping at
the first failure, as an exception aborts parseFile.  On failure the
returned state is the pre-statement state: a failing statement makes no
observable change to self.variables or self.sections (a failing append
raises before assigning, and section parsing only mutates
self.identifiers, which is discarded with the parser object). -/
def runParser (st : PState) : List Statement → PState × Option PErr
  | [] => (st, none)
  | s :: rest =>
    match parseStatement st s with
    | .ok st2 => runParser st2 rest
    | .error e => (st, some e)

/-- Initial state of a SoongFileParser: self.variables aliases the
inbound (project) scope, identifiers and sections start empty. -/
def initPState (vars : PyDict) : PState := ⟨vars, [], []⟩

/-- SoongParser.parse_file's metadata decoration of one parsed section:
SECTION_PROJECT, SOONG_FILE and (when a project path is known)
SECTION_PROJECT_PATH are assigned in that order. -/
def addMetadata (sdict : PyDict) (projectName filePath : String)
    (projectPath : Option String) : PyDict :=
  let s1 := dictInsert sdict sectionProjectKey (Value.vStr projectName)
  let s2 := dictInsert s1 soongFileKey (Value.vPath filePath)
  match projectPath with
  | some pp => dictInsert s2 sectionProjectPathKey (Value.vPath pp)
  | none => s2

/-- The section-collection loop of SoongParser.parse_file: every section
of the file parser is decorated with metadata and appended to the
SoongParser's sections, in file order. -/
def appendParsed (orig : Sections) (parsed : Sections) (projectName filePath : String)
    (projectPath : Option String) : Sections :=
  parsed.foldl
    (fun acc nl =>
      nl.2.foldl
        (fun acc2 sdict => secAppend acc2 nl.1 (addMetadata sdict projectName filePath projectPath))
        acc)
    orig

/-- Embedding of SoongParser.parse_file (soong_parser.py lines 228-270)
for a call that supplies a project name.  A BGraphParserException from
the file parser — including the post-parse check that rejects leftover
identifiers or a file yielding neither sections nor variables — is
caught: the file's sections are discarded while the in-place mutations
of the shared project scope survive.  An uncaught TypeError escapes.
On success the parsed sections are appended with their metadata. -/
def parseFileModel (origSections : Sections) (projectVars : PyDict)
    (stmts : List Statement) (projectName filePath : String)
    (projectPath : Option String) : Except PErr (Sections × PyDict) :=
  match runParser (initPState projectVars) stmts with
  | (st, some .parserException) => .ok (origSections, st.vScope)
  | (_, some .typeError) => .error .typeError
  | (st, none) =>
    if !st.idents.isEmpty || (st.secs.isEmpty && st.vScope.isEmpty) then
      .ok (origSections, st.vScope)
    else
      .ok (appendParsed origSections st.secs projectName filePath projectPath,
        st.vScope)

/-- Bool test that needle is a prefix of hay (str.startswith). -/
def charsStart : List Char → List Char → Bool
  | _, [] => true
  | [], _ :: _ => false
  | a :: as, b :: bs => a = b && charsStart as bs

/-- Bool test that needle occurs inside hay (Python: needle in hay). -/
def charsHas : List Char → List Char → Bool
  | [], needle => needle.isEmpty
  | a :: rest, needle => charsStart (a :: rest) needle || charsHas rest needle

/-- Python: sub in s, on strings. -/
def strContains (s sub : String) : Bool := charsHas s.data sub.data

/-- str.replace("**/", "*"): left-to-right, non-overlapping. -/
def replaceSS : List Char → List Char
  | [] => []
  | [c] => [c]
  | [c, d] => [c, d]
  | c :: d :: e :: rest =>
    if c = '*' ∧ d = '*' ∧ e = '/' then '*' :: replaceSS rest
    else c :: replaceSS (d :: e :: rest)

/-- The prefix-stripping loop of convert_section: the first matching
prefix of "./" then "." is removed once. -/
def stripDots (l : List Char) : List Char :=
  if charsStart l ['.', '/'] then l.drop 2
  else if charsStart l ['.'] then l.drop 1
  else l

/-- Fuel-indexed glob matching in the style of Python fnmatch for the
bracket-free fragment of the pattern language: * matches any character
run including path separators, ? any single character, everything else
matches itself.  fnmatch additionally gives '[seq]' and '[!seq]'
character-class semantics to a '[' with a matching ']'; that case is
outside the modelled fragment, so this definition agrees with fnmatch
only on patterns containing no '[' — every theorem below that relates a
concrete outcome to the program applies it only to such patterns.  Each
recursive call consumes one unit of fuel; fuel exceeding
pattern length + string length never runs out. -/
def globMatchF : Nat → List Char → List Char → Bool
  | 0, _, _ => false
  | _ + 1, [], s => s.isEmpty
  | fuel + 1, p :: ps, s =>
    if p = '*' then
      match s with
      | [] => globMatchF fuel ps []
      | _ :: cs => globMatchF fuel ps s || globMatchF fuel (p :: ps) cs
    else
      match s with
      | [] => false
      | c :: cs =>
        if p = '?' then globMatchF fuel ps cs
        else p = c && globMatchF fuel ps cs

/-- fnmatch.fnmatch of one name against one pattern (POSIX normcase is
the identity). -/
def globMatch (pat s : List Char) : Bool :=
  globMatchF (pat.length + s.length + 1) pat s

/-- PosixPath joining of a directory and a relative path, and str() of
the result. -/
def pathJoin (a b : String) : String := a ++ "/" ++ b

/-- Scans a reversed character list for the first slash and returns what
follows it (the reversed parent path). -/
def parentRev : List Char → Option (List Char)
  | [] => none
  | c :: rest => if c = '/' then some rest else parentRev rest

/-- PosixPath.parent on a clean relative path: everything before the
last slash, or the relative anchor dot for a bare filename. -/
def pathParent (p : String) : String :=
  match parentRev p.data.reverse with
  | none => "."
  | some rest => String.mk rest.reverse

/-- PosixPath.relative_to for the clean paths the builder handles: the
base itself maps to the anchor dot, a path under base drops the
base-plus-slash prefix, anything else raises ValueError (none). -/
def relativeToStr (full base : String) : Option String :=
  if full.data = base.data then some "."
  else if charsStart full.data (base.data ++ ['/']) then
    some (String.mk (full.data.drop (base.data.length + 1)))
  else none

/-- The section_files cache of the graph builder: a dict from a
build-file directory to the file list computed for it. -/
abbrev FileCache := List (String × List String)

/-- Lookup in the section_files cache. -/
def cacheLookup : FileCache → String → Option (List String)
  | [], _ => none
  | (k, v) :: rest, key => if k = key then some v else cacheLookup rest key

/-- Embedding of compute_file_list (graph.py lines 44-74): on a cache
miss, every project file whose joined path string starts with the
build-file directory string is relativized to that directory
(relative_to failures — sibling directories that merely share a string
prefix — are skipped), and the resulting list is cached. -/
def computeFileList (cache : FileCache) (soongDir projectPath : String)
    (files : List String) : FileCache × List String :=
  match cacheLookup cache soongDir with
  | some l => (cache, l)
  | none =>
    let lst := files.filterMap (fun f =>
      let full := pathJoin projectPath f
      if charsStart full.data soongDir.data then relativeToStr full soongDir else none)
    (cache ++ [(soongDir, lst)], lst)

/-- The dependency-class property keys of graph.py (dependencies_keys). -/
def dependenciesKeys : List String :=
  ["shared_libs", "static_libs", "header_libs", "whole_static_libs", "required",
    "system_shared_libs"]

/-- The source-class property keys of graph.py (srcs_keys). -/
def srcsKeys : List String :=
  ["srcs", "include_dirs", "local_include_dirs", "export_include_dirs"]

/-- Edge tag of the dependency graph: type="dep" or type="src". -/
inductive EType where
  | dep
  | src
  deriving Repr, DecidableEq

/-- One directed edge of the graph: origin node, destination node, tag. -/
abbrev Edge := String × String × EType

/-- networkx DiGraph.add_edge: adding an edge that already exists
overwrites its attributes in place, otherwise the edge is appended. -/
def addEdge (es : List Edge) (u v : String) (t : EType) : List Edge :=
  if es.any (fun e => e.1 = u && e.2.1 = v) then
    es.map (fun e => if e.1 = u && e.2.1 = v then (u, v, t) else e)
  else es ++ [(u, v, t)]

mutual

/-- Embedding of bgraph.utils.recurse: yields every key/value pair of a
mapping, descending recursively through dict values (so a dict value is
never yielded itself). -/
def recursePairs : List (String × Value) → List (String × Value)
  | [] => []
  | (k, v) :: rest => recurseVal k v ++ recursePairs rest

/-- One key/value pair as recurse yields it: a dict value is flattened,
any other value is yielded as is. -/
def recurseVal : String → Value → List (String × Value)
  | _, Value.vDict d => recursePairs d
  | k, v => [(k, v)]

end

/-- The pattern convert_section passes to fnmatch for one source-class
value: a trailing * is appended for directory keys (name containing
"dirs"), a leading "./" or "." is stripped, and "**/" is approximated by
"*". -/
def srcPattern (key dep : String) : List Char :=
  let d1 := if strContains key "dirs" then dep.data ++ ['*'] else dep.data
  replaceSS (stripDots d1)

/-- The dependency-edge loop of convert_section: each string value
becomes an edge from that literal value to the consuming section, with
no glob matching and no existence check; a non-string value is not a
node of this string-keyed model (a list or dict would be a Python
TypeError on hashing). -/
def depEdges (es : List Edge) (name : String) : List Value → Option (List Edge)
  | [] => some es
  | .vStr s :: rest => depEdges (addEdge es s name EType.dep) name rest
  | _ :: _ => none

/-- The source-edge loop of convert_section: each string value is turned
into a glob pattern, matched against the (cached) file list of the
build-file directory, and every match adds an edge from the matched
file's full path string to the section; a non-string value is an
AttributeError on .startswith (none). -/
def srcEdges (cache : FileCache) (es : List Edge) (name soongDir projectPath : String)
    (files : List String) (key : String) : List Value → Option (FileCache × List Edge)
  | [] => some (cache, es)
  | .vStr s :: rest =>
    let pat := srcPattern key s
    let res := computeFileList cache soongDir projectPath files
    let matched := res.2.filter (fun f => globMatch pat f.data)
    let es2 := matched.foldl (fun acc f => addEdge acc (pathJoin soongDir f) name EType.src) es
    srcEdges res.1 es2 name soongDir projectPath files key rest
  | _ :: _ => none

/-- The key/value loop of convert_section over the recursively flattened
section: dependency-class keys add literal dependency edges, source-class
keys add glob-resolved source edges, every other key is ignored.  The
project-path metadata value is only inspected when a source-class key
needs it (a non-Path value is a TypeError at the path join). -/
def convertPairs (cache : FileCache) (es : List Edge) (name soongDir : String)
    (ppv : Value) (files : List String) :
    List (String × Value) → Option (FileCache × List Edge)
  | [] => some (cache, es)
  | (key, value) :: rest =>
    if dependenciesKeys.contains key then
      match pyIter value with
      | none => none
      | some elems =>
        match depEdges es name elems with
        | none => none
        | some es2 => convertPairs cache es2 name soongDir ppv files rest
    else if srcsKeys.contains key then
      match ppv with
      | .vPath pp =>
        match pyIter value with
        | none => none
        | some elems =>
          match srcEdges cache es name soongDir pp files key elems with
          | none => none
          | some res => convertPairs res.1 res.2 name soongDir ppv files rest
      | _ => none
    else convertPairs cache es name soongDir ppv files rest

/-- Embedding of convert_section (graph.py lines 77-158) for one section
of one target, threading the section_files cache and the graph's edge
set.  A section missing its project-path or build-file metadata (or
whose build-file value has no .parent) is skipped with no edges.  The
result is none for the uncaught TypeErrors of the loop body. -/
def convertSection (cache : FileCache) (es : List Edge) (sectionName : String)
    (sec : PyDict) (projectFiles : List String) : Option (FileCache × List Edge) :=
  match dictLookup sec sectionProjectPathKey with
  | none => some (cache, es)
  | some ppv =>
    match dictLookup sec soongFileKey with
    | none => some (cache, es)
    | some (.vPath sf) =>
      convertPairs cache es sectionName (pathParent sf) ppv projectFiles (recursePairs sec)
    | some _ => some (cache, es)

/-- Failure modes of defaults resolution: BGraphMissingSectionException
(caught per defaults reference), an uncaught TypeError (merge failure or
unhashable defaults name), an IndexError from taking the first variant
of an empty list, and fuel exhaustion, which models the Python call
recursing without reaching a result. -/
inductive RErr where
  | missingSection
  | typeError
  | indexError
  | noFuel
  deriving Repr, DecidableEq

/-- l[i] = x on a Python list (no-op when out of range, which does not
occur in the modelled flow). -/
def listSet : List PyDict → Nat → PyDict → List PyDict
  | [], _, _ => []
  | _ :: rest, 0, x => x :: rest
  | y :: rest, Nat.succ i, x => y :: listSet rest i x

mutual

/-- Embedding of SoongParser._retrieve_section (soong_parser.py lines
404-453).  The Python method recurses with no cycle detection; every
call level consumes one unit of fuel, so a run that exhausts any amount
of fuel models unbounded recursion (in CPython, a RecursionError).  The
result pairs the updated sections state with the returned variant list;
a recursive=True caller takes the first element. -/
def retrieveGo : Nat → Sections → String → Except RErr (Sections × List PyDict)
  | 0, _, _ => .error .noFuel
  | fuel + 1, secs, name =>
    match secLookup secs name with
    | none => .error .missingSection
    | some projects =>
      match retrieveLoop fuel secs name (List.range projects.length) with
      | .error e => .error e
      | .ok secs2 => .ok (secs2, (secLookup secs2 name).getD [])

/-- The enumerate(projects) loop of _retrieve_section: each variant with
a defaults property has its defaults resolved and merged, is written
back at its index, and loses its defaults key (a single write of the
deleted dict, as the del acts on the freshly stored object; the length
of the variant list never changes, so the index range is fixed at
entry). -/
def retrieveLoop : Nat → Sections → String → List Nat → Except RErr Sections
  | 0, _, _, _ => .error .noFuel
  | fuel + 1, secs, name, idxs =>
    match idxs with
    | [] => .ok secs
    | i :: rest =>
      match (secLookup secs name).bind (fun l => l[i]?) with
      | none => .ok secs
      | some sectionMap =>
        match dictLookup sectionMap "defaults" with
        | none => retrieveLoop fuel secs name rest
        | some dv =>
          match retrieveDefaults fuel secs sectionMap
              (match dv with
                | Value.vList l => l
                | x => [x]) with
          | .error e => .error e
          | .ok (secs2, merged) =>
            match secLookup secs2 name with
            | none => .error .indexError
            | some l =>
              retrieveLoop fuel
                (secUpdate secs2 name (listSet l i (dictDelete merged "defaults")))
                name rest

/-- The inner loop over one variant's defaults references: each string
name is resolved recursively (a missing section is skipped) and its
first variant is merged underneath the running section map; a
non-string hashable name is simply absent from the sections dict
(skipped), an unhashable list or dict name is a TypeError. -/
def retrieveDefaults : Nat → Sections → PyDict → List Value →
    Except RErr (Sections × PyDict)
  | 0, _, _, _ => .error .noFuel
  | fuel + 1, secs, sectionMap, names =>
    match names with
    | [] => .ok (secs, sectionMap)
    | n :: rest =>
      match n with
      | Value.vStr dname =>
        match retrieveGo fuel secs dname with
        | .error .missingSection => retrieveDefaults fuel secs sectionMap rest
        | .error e => .error e
        | .ok (secs2, lst) =>
          match lst with
          | [] => .error .indexError
          | dmap :: _ =>
            match mergeSection sectionMap dmap with
            | none => .error .typeError
            | some merged => retrieveDefaults fuel secs2 merged rest
      | Value.vBool _ => retrieveDefaults fuel secs sectionMap rest
      | Value.vInt _ => retrieveDefaults fuel secs sectionMap rest
      | Value.vPath _ => retrieveDefaults fuel secs sectionMap rest
      | _ => .error .typeError

end

/-- Two parsed modules whose defaults references form a two-cycle:
module A lists B in defaults and B lists A. -/
def cyclicSecs : Sections :=
  [("A", [[("defaults", Value.vStr "B")]]),
    ("B", [[("defaults", Value.vStr "A")]])]

/- ## Heap model of _merge_section (soong_parser.py lines 455-491).
The pure rMerge model above captures the returned value but not object
identity, so mutation and aliasing questions need an explicit store:
dicts live at numeric addresses and a value refers to a dict through
hRef; booleans, ints, strings and Paths are immutable in Python and
lists are never mutated in place by the merge (list conflicts build a
fresh list), so those are kept as plain values. -/

inductive HValue where
  | hBool : Bool → HValue
  | hInt : Int → HValue
  | hStr : String → HValue
  | hPath : String → HValue
  | hList : List HValue → HValue
  | hRef : Nat → HValue
  deriving Repr

abbrev HDict := List (String × HValue)

abbrev Store := List (Nat × HDict)

/-- d.get(key) on a heap dict. -/
def dictLookupH : HDict → String → Option HValue
  | [], _ => none
  | (k, v) :: rest, key => if k = key then some v else dictLookupH rest key

/-- d[key] = v on a heap dict: an existing key keeps its position, a
new key is appended at the end. -/
def dictInsertH : HDict → String → HValue → HDict
  | [], key, v => [(key, v)]
  | (k, w) :: rest, key, v =>
    if k = key then (k, v) :: rest else (k, w) :: dictInsertH rest key v

/-- Read the dict object stored at an address. -/
def storeLookup : Store → Nat → Option HDict
  | [], _ => none
  | (a, d) :: rest, x => if x = a then some d else storeLookup rest x

/-- Overwrite the dict object stored at an address (no-op when the
address is unallocated, which the modelled flows never do). -/
def storeSet : Store → Nat → HDict → Store
  | [], _, _ => []
  | (a, d) :: rest, x, d2 =>
    if a = x then (a, d2) :: rest else (a, d) :: storeSet rest x d2

/-- The least address strictly above every allocated address: a fresh
address for the next allocation. -/
def freshAddr (st : Store) : Nat := (st.map (fun p => p.1 + 1)).foldr max 0

/-- Lookup in the deepcopy memo table (source address to copy address). -/
def memoLookup : List (Nat × Nat) → Nat → Option Nat
  | [], _ => none
  | (a, b) :: rest, x => if x = a then some b else memoLookup rest x

mutual

/-- The addresses a value refers to (directly or through lists). -/
def hvRefs : HValue → List Nat
  | HValue.hBool _ => []
  | HValue.hInt _ => []
  | HValue.hStr _ => []
  | HValue.hPath _ => []
  | HValue.hList l => hvListRefs l
  | HValue.hRef a => [a]

/-- The addresses the values of a list refer to. -/
def hvListRefs : List HValue → List Nat
  | [] => []
  | v :: rest => hvRefs v ++ hvListRefs rest

end

/-- The addresses the values of a dict refer to. -/
def dictRefs : HDict → List Nat
  | [] => []
  | (_, v) :: rest => hvRefs v ++ dictRefs rest

/-- list(x) on a heap value: a string yields its characters, a list its
elements, a dict its keys; booleans, ints and Paths are not iterable
(TypeError). -/
def hIter (st : Store) : HValue → Option (List HValue)
  | HValue.hStr s => some (s.data.map (fun c => HValue.hStr (String.mk [c])))
  | HValue.hList l => some l
  | HValue.hRef a =>
    match storeLookup st a with
    | none => none
    | some d => some (d.map (fun e => HValue.hStr e.1))
  | _ => none

mutual

/-- copy.deepcopy on a heap value: atoms are shared (immutable), lists
are rebuilt elementwise, and a dict reference is looked up in the memo
first — so a dict object reachable twice is copied once and the copy
preserves the internal aliasing — otherwise a fresh address is
allocated, registered in the memo before the entries are copied (as
CPython does, to handle cycles), and filled with the copied entries.
Fuel bounds the recursion depth; none models nontermination or a
dangling address. -/
def dcVal : Nat → Store → List (Nat × Nat) → HValue →
    Option (Store × List (Nat × Nat) × HValue)
  | 0, _, _, _ => none
  | fuel + 1, st, memo, v =>
    match v with
    | HValue.hBool b => some (st, memo, HValue.hBool b)
    | HValue.hInt n => some (st, memo, HValue.hInt n)
    | HValue.hStr s => some (st, memo, HValue.hStr s)
    | HValue.hPath s => some (st, memo, HValue.hPath s)
    | HValue.hList l =>
      match dcList fuel st memo l with
      | none => none
      | some (st2, memo2, l2) => some (st2, memo2, HValue.hList l2)
    | HValue.hRef a =>
      match memoLookup memo a with
      | some b => some (st, memo, HValue.hRef b)
      | none =>
        match storeLookup st a with
        | none => none
        | some d =>
          match dcEntries fuel ((freshAddr st, []) :: st) ((a, freshAddr st) :: memo) d with
          | none => none
          | some (st2, memo2, d2) =>
            some (storeSet st2 (freshAddr st) d2, memo2, HValue.hRef (freshAddr st))

/-- Deep copy of the elements of a list, threading store and memo. -/
def dcList : Nat → Store → List (Nat × Nat) → List HValue →
    Option (Store × List (Nat × Nat) × List HValue)
  | 0, _, _, _ => none
  | _ + 1, st, memo, [] => some (st, memo, [])
  | fuel + 1, st, memo, v :: rest =>
    match dcVal fuel st memo v with
    | none => none
    | some (st2, memo2, v2) =>
      match dcList fuel st2 memo2 rest with
      | none => none
      | some (st3, memo3, rest2) => some (st3, memo3, v2 :: rest2)

/-- Deep copy of the entries of a dict, threading store and memo. -/
def dcEntries : Nat → Store → List (Nat × Nat) → HDict →
    Option (Store × List (Nat × Nat) × HDict)
  | 0, _, _, _ => none
  | _ + 1, st, memo, [] => some (st, memo, [])
  | fuel + 1, st, memo, (k, v) :: rest =>
    match dcVal fuel st memo v with
    | none => none
    | some (st2, memo2, v2) =>
      match dcEntries fuel st2 memo2 rest with
      | none => none
      | some (st3, memo3, rest2) => some (st3, memo3, (k, v2) :: rest2)

end

mutual

/-- Heap embedding of recursive_merge(mapping, key, v): mapping is the
address of the target dict.  A key absent from the target is bound to
the child's value itself — a reference, not a copy.  On a present key,
a scalar or Path child value overwrites, a list child value is
concatenated in front of list(old) and stored as a fresh list, and a
dict child value recurses entrywise into the old value, which yields a
TypeError when the old value is not a dict and the child dict is
non-empty.  Fuel bounds the recursion depth. -/
def hRecMerge : Nat → Store → Nat → String → HValue → Option Store
  | 0, _, _, _, _ => none
  | fuel + 1, st, addr, key, v =>
    match storeLookup st addr with
    | none => none
    | some d =>
      match dictLookupH d key with
      | none => some (storeSet st addr (dictInsertH d key v))
      | some old =>
        match v with
        | HValue.hBool b => some (storeSet st addr (dictInsertH d key (HValue.hBool b)))
        | HValue.hInt n => some (storeSet st addr (dictInsertH d key (HValue.hInt n)))
        | HValue.hStr s => some (storeSet st addr (dictInsertH d key (HValue.hStr s)))
        | HValue.hPath s => some (storeSet st addr (dictInsertH d key (HValue.hPath s)))
        | HValue.hList l =>
          match hIter st old with
          | none => none
          | some tail =>
            some (storeSet st addr (dictInsertH d key (HValue.hList (l ++ tail))))
        | HValue.hRef a2 =>
          match storeLookup st a2 with
          | none => none
          | some d2 =>
            match old with
            | HValue.hRef a3 => hMergeList fuel st a3 d2
            | _ =>
              match d2 with
              | [] => some st
              | _ => none

/-- The items() loop of recursive_merge's dict case, and of
_merge_section's top-level loop: merge each entry in order into the
dict at the given address. -/
def hMergeList : Nat → Store → Nat → HDict → Option Store
  | 0, _, _, _ => none
  | _ + 1, st, _, [] => some st
  | fuel + 1, st, addr, (k, v) :: rest =>
    match hRecMerge fuel st addr k v with
    | none => none
    | some st2 => hMergeList fuel st2 addr rest

end

/-- Heap embedding of _merge_section: final_map = copy.deepcopy of the
default dict, then every entry of the child (section) dict is merged
into it in order; returns the updated store and the address of the
freshly built result dict. -/
def hMergeSection : Nat → Store → Nat → Nat → Option (Store × Nat)
  | 0, _, _, _ => none
  | fuel + 1, st, childAddr, defaultAddr =>
    match dcVal fuel st [] (HValue.hRef defaultAddr) with
    | some (st2, _, HValue.hRef newAddr) =>
      match storeLookup st2 childAddr with
      | none => none
      | some childD =>
        match hMergeList fuel st2 newAddr childD with
        | none => none
        | some st3 => some (st3, newAddr)
    | _ => none

/-- A store holding a child module's property map at address 1 --
{"a": {"x": {"y": 1}}, "b": {"x": {"z": 2}}} via addresses 2-5 -- and a
default map at address 6 whose two keys alias one shared empty dict at
address 7: {"a": d, "b": d} with d = {}. -/
def cexAliasStore : Store :=
  [(1, [("a", HValue.hRef 2), ("b", HValue.hRef 3)]),
    (2, [("x", HValue.hRef 4)]),
    (3, [("x", HValue.hRef 5)]),
    (4, [("y", HValue.hInt 1)]),
    (5, [("z", HValue.hInt 2)]),
    (6, [("a", HValue.hRef 7), ("b", HValue.hRef 7)]),
    (7, [])]

/-- All addresses in a list lie at or above a bound. -/
def RefsLe (B : Nat) (l : List Nat) : Prop := ∀ r ∈ l, B ≤ r

/-- Every dict stored at or above the bound only refers to addresses at
or above the bound. -/
def StoreHi (B : Nat) (st : Store) : Prop :=
  ∀ a d, B ≤ a → storeLookup st a = some d → RefsLe B (dictRefs d)

/-- Every copy address recorded in a deepcopy memo lies at or above the
bound. -/
def MemoHi (B : Nat) (memo : List (Nat × Nat)) : Prop :=
  ∀ q ∈ memo, B ≤ q.2

/-- Inductive statement for dcVal: under the freshness invariants, a
deep copy leaves every address below the bound untouched, never lowers
the fresh-address watermark, keeps the memo and the high region closed
above the bound, and returns a value referring only above the bound. -/
def DcValOK (B fuel : Nat) : Prop :=
  ∀ st memo v st2 memo2 v2,
    dcVal fuel st memo v = some (st2, memo2, v2) →
    B ≤ freshAddr st → MemoHi B memo → StoreHi B st →
    (∀ a, a < B → storeLookup st2 a = storeLookup st a) ∧
    freshAddr st ≤ freshAddr st2 ∧
    MemoHi B memo2 ∧ StoreHi B st2 ∧ RefsLe B (hvRefs v2)

/-- Inductive statement for dcList, as for DcValOK. -/
def DcListOK (B fuel : Nat) : Prop :=
  ∀ st memo l st2 memo2 l2,
    dcList fuel st memo l = some (st2, memo2, l2) →
    B ≤ freshAddr st → MemoHi B memo → StoreHi B st →
    (∀ a, a < B → storeLookup st2 a = storeLookup st a) ∧
    freshAddr st ≤ freshAddr st2 ∧
    MemoHi B memo2 ∧ StoreHi B st2 ∧ RefsLe B (hvListRefs l2)

/-- Inductive statement for dcEntries, as for DcValOK. -/
def DcEntriesOK (B fuel : Nat) : Prop :=
  ∀ st memo d st2 memo2 d2,
    dcEntries fuel st memo d = some (st2, memo2, d2) →
    B ≤ freshAddr st → MemoHi B memo → StoreHi B st →
    (∀ a, a < B → storeLookup st2 a = storeLookup st a) ∧
    freshAddr st ≤ freshAddr st2 ∧
    MemoHi B memo2 ∧ StoreHi B st2 ∧ RefsLe B (dictRefs d2)

/-- An address is writable for the merge when it is fresh (at or above
the bound) or reachable from the child (in the set rs). -/
def InOK (B : Nat) (rs : List Nat) (a : Nat) : Prop := B ≤ a ∨ a ∈ rs

/-- All addresses in the list are writable. -/
def ValOK (B : Nat) (rs : List Nat) (l : List Nat) : Prop :=
  ∀ r ∈ l, InOK B rs r

/-- Every dict stored at a writable address refers only to writable
addresses. -/
def StClosed (B : Nat) (rs : List Nat) (st : Store) : Prop :=
  ∀ a d, InOK B rs a → storeLookup st a = some d → ValOK B rs (dictRefs d)

/-- Inductive statement for hRecMerge: a merge step into a writable
target with a writable value leaves every non-writable address
untouched and preserves closure of the writable region. -/
def MergeOK (B : Nat) (rs : List Nat) (fuel : Nat) : Prop :=
  ∀ st addr key v st2,
    hRecMerge fuel st addr key v = some st2 →
    InOK B rs addr → ValOK B rs (hvRefs v) → StClosed B rs st →
    (∀ a, ¬ InOK B rs a → storeLookup st2 a = storeLookup st a) ∧ StClosed B rs st2

/-- Inductive statement for hMergeList, as for MergeOK. -/
def MergeListOK (B : Nat) (rs : List Nat) (fuel : Nat) : Prop :=
  ∀ st addr entries st2,
    hMergeList fuel st addr entries = some st2 →
    InOK B rs addr → ValOK B rs (dictRefs entries) → StClosed B rs st →
    (∀ a, ¬ InOK B rs a → storeLookup st2 a = storeLookup st a) ∧ StClosed B rs st2

-- ===== THEOREMS BELOW (claim theorems and supporting lemmas) =====

theorem dictLookup_append_of_none {d1 d2 : PyDict} {k : String}
    (h : dictLookup d1 k = none) : dictLookup (d1 ++ d2) k = dictLookup d2 k := by
  induction d1 with
  | nil => simp
  | cons kv rest ih =>
    obtain ⟨k2, w⟩ := kv
    by_cases hk : k2 = k
    · simp [dictLookup, hk] at h
    · simp [dictLookup, hk] at h ⊢
      exact ih h

theorem dictLookup_append_of_some {d1 d2 : PyDict} {k : String} {v : Value}
    (h : dictLookup d1 k = some v) : dictLookup (d1 ++ d2) k = some v := by
  induction d1 with
  | nil => simp [dictLookup] at h
  | cons kv rest ih =>
    obtain ⟨k2, w⟩ := kv
    by_cases hk : k2 = k
    · simp [dictLookup, hk] at h ⊢
      exact h
    · simp [dictLookup, hk] at h ⊢
      exact ih h

theorem dictLookup_insert_self (d : PyDict) (k : String) (v : Value) :
    dictLookup (dictInsert d k v) k = some v := by
  induction d with
  | nil => simp [dictInsert, dictLookup]
  | cons kv rest ih =>
    obtain ⟨k2, w⟩ := kv
    by_cases hk : k2 = k
    · simp [dictInsert, dictLookup, hk]
    · simp [dictInsert, dictLookup, hk, ih]

theorem dictLookup_insert_ne {d : PyDict} {k k2 : String} (v : Value) (h : k2 ≠ k) :
    dictLookup (dictInsert d k v) k2 = dictLookup d k2 := by
  induction d with
  | nil => simp [dictInsert, dictLookup, Ne.symm h]
  | cons kv rest ih =>
    obtain ⟨k3, w⟩ := kv
    by_cases hk : k3 = k
    · subst hk
      simp [dictInsert, dictLookup, Ne.symm h]
    · simp [dictInsert, dictLookup, hk]
      by_cases hk2 : k3 = k2 <;> simp [hk2, ih]

theorem dictInsert_of_lookup_none {d : PyDict} {k : String} (v : Value)
    (h : dictLookup d k = none) : dictInsert d k v = d ++ [(k, v)] := by
  induction d with
  | nil => simp [dictInsert]
  | cons kv rest ih =>
    obtain ⟨k2, w⟩ := kv
    by_cases hk : k2 = k
    · simp [dictLookup, hk] at h
    · simp [dictLookup, hk] at h
      simp [dictInsert, hk, ih h]

theorem dkeys_insert_of_lookup_some {d : PyDict} {k : String} {w : Value} (v : Value)
    (h : dictLookup d k = some w) : dkeys (dictInsert d k v) = dkeys d := by
  induction d with
  | nil => simp [dictLookup] at h
  | cons kv rest ih =>
    obtain ⟨k2, w2⟩ := kv
    by_cases hk : k2 = k
    · simp [dictInsert, hk, dkeys]
    · simp [dictLookup, hk] at h
      simp [dictInsert, hk, dkeys] at ih ⊢
      exact ih h

theorem dictLookup_eq_none_iff {d : PyDict} {k : String} :
    dictLookup d k = none ↔ k ∉ dkeys d := by
  induction d with
  | nil => simp [dictLookup, dkeys]
  | cons kv rest ih =>
    obtain ⟨k2, w⟩ := kv
    by_cases hk : k2 = k
    · simp [dictLookup, hk, dkeys]
    · simp [dictLookup, dkeys, hk, Ne.symm hk] at ih ⊢
      exact ih

theorem dkeys_filter (d : PyDict) (p : String → Bool) :
    dkeys (d.filter fun kv => p kv.1) = (dkeys d).filter p := by
  induction d with
  | nil => simp [dkeys]
  | cons kv rest ih =>
    obtain ⟨k, v⟩ := kv
    by_cases hp : p k <;> simp [dkeys, List.filter_cons, hp] at ih ⊢ <;> exact ih

theorem keysDistinct_cons {k : String} {v : Value} {d : PyDict} :
    keysDistinct ((k, v) :: d) ↔ k ∉ dkeys d ∧ keysDistinct d := by
  simp [keysDistinct, dkeys]

/-- Two well-formed dicts with the same ordered key list and the same
lookup function are equal. -/
theorem dictExt {d1 d2 : PyDict} (hd : keysDistinct d1) (hk : dkeys d1 = dkeys d2)
    (hl : ∀ k, dictLookup d1 k = dictLookup d2 k) : d1 = d2 := by
  induction d1 generalizing d2 with
  | nil =>
    cases d2 with
    | nil => rfl
    | cons kv rest => simp [dkeys] at hk
  | cons kv rest ih =>
    obtain ⟨k, v⟩ := kv
    cases d2 with
    | nil => simp [dkeys] at hk
    | cons kv2 rest2 =>
      obtain ⟨k2, v2⟩ := kv2
      simp [dkeys] at hk
      obtain ⟨hkk, hrest⟩ := hk
      subst hkk
      rw [keysDistinct_cons] at hd
      have hv : v = v2 := by
        have := hl k
        simpa [dictLookup] using this
      subst hv
      have htl : ∀ key, dictLookup rest key = dictLookup rest2 key := by
        intro key
        by_cases hkey : key = k
        · subst hkey
          have h1 : dictLookup rest key = none := dictLookup_eq_none_iff.mpr hd.1
          have h2 : dictLookup rest2 key = none := by
            rw [dictLookup_eq_none_iff]
            simp only [dkeys] at hrest ⊢
            rw [← hrest]
            exact hd.1
          rw [h1, h2]
        · have := hl key
          simpa [dictLookup, Ne.symm hkey] using this
      rw [ih hd.2 hrest htl]

/-- Writing the value a key already has back into a dict leaves the dict
unchanged. -/
theorem dictInsert_lookup_self {m : PyDict} {k : String} {v : Value}
    (h : dictLookup m k = some v) : dictInsert m k v = m := by
  induction m with
  | nil => simp [dictLookup] at h
  | cons kv rest ih =>
    obtain ⟨k2, w⟩ := kv
    by_cases hk : k2 = k
    · subst hk
      simp [dictLookup] at h
      simp [dictInsert, h]
    · simp [dictLookup, hk] at h
      simp [dictInsert, hk, ih h]

theorem mergeSection_nil (base : PyDict) : mergeSection [] base = some base := rfl

theorem mergeSection_cons (k : String) (v : Value) (rest base : PyDict) :
    mergeSection ((k, v) :: rest) base =
      match rMerge base k v with
      | some base2 => mergeSection rest base2
      | none => none := rfl

theorem rMerge_of_lookup_none {m : PyDict} {k : String} (v : Value)
    (h : dictLookup m k = none) : rMerge m k v = some (dictInsert m k v) := by
  cases v <;> simp [rMerge, h]

theorem rMerge_of_lookup_some {m : PyDict} {k : String} {old : Value} (v : Value)
    (h : dictLookup m k = some old) :
    rMerge m k v = (combine v old).map (fun w => dictInsert m k w) := by
  cases v with
  | vBool b => simp [rMerge, combine, h]
  | vInt n => simp [rMerge, combine, h]
  | vStr s => simp [rMerge, combine, h]
  | vPath p => simp [rMerge, combine, h]
  | vList l =>
    cases hit : pyIter old <;> simp [rMerge, combine, h, hit]
  | vDict d =>
    cases old with
    | vDict inner =>
      cases hmi : mergeInto inner d <;> simp [rMerge, combine, h, hmi]
    | vBool b =>
      cases hd : d.isEmpty <;>
        simp [rMerge, combine, h, hd, dictInsert_lookup_self h]
    | vInt n =>
      cases hd : d.isEmpty <;>
        simp [rMerge, combine, h, hd, dictInsert_lookup_self h]
    | vStr s =>
      cases hd : d.isEmpty <;>
        simp [rMerge, combine, h, hd, dictInsert_lookup_self h]
    | vPath p =>
      cases hd : d.isEmpty <;>
        simp [rMerge, combine, h, hd, dictInsert_lookup_self h]
    | vList l =>
      cases hd : d.isEmpty <;>
        simp [rMerge, combine, h, hd, dictInsert_lookup_self h]

/-- C1, counterexample.  The claim states that on a type combination not
covered by the like-for-like rules — for example a child (overriding)
list over a base (default) string — the merged value is exactly the
child's value.  On the key cflags with child value the list
containing the string x and base value the string ab, the code instead
concatenates the child list with the characters of the base string:
the merged value is the three-element list x, a, b, not the child's
one-element list. -/
theorem C1_counterexample :
    mergeSection [("cflags", Value.vList [Value.vStr "x"])] [("cflags", Value.vStr "ab")] =
      some [("cflags", Value.vList [Value.vStr "x", Value.vStr "a", Value.vStr "b"])] ∧
    some [("cflags", Value.vList [Value.vStr "x", Value.vStr "a", Value.vStr "b"])] ≠
      (some [("cflags", Value.vList [Value.vStr "x"])] : Option PyDict) := by
  refine ⟨rfl, ?_⟩
  simp

/-- C1, amended.  For a key present in both maps whose value pair is a
type combination not covered by the list/list or map/map rules, the
merge step behaves as mismatchMergeSpec describes: a scalar (boolean,
integer, string) or Path child value wins outright; a child list is
concatenated in front of the iteration of the base value (the characters
of a string, the keys of a map) and raises a TypeError on a
non-iterable base value; a non-empty child map over a non-map base value
raises a TypeError, and an empty child map leaves the base value in
place. -/
theorem C1_mismatch_overwrite (m : PyDict) (k : String) (v old : Value)
    (hlook : dictLookup m k = some old) (hclash : typeClash v old = true) :
    rMerge m k v = mismatchMergeSpec m k v old := by
  cases v <;> cases old <;>
    simp_all [rMerge, mismatchMergeSpec, typeClash, isListV, isDictV, pyIter]

/-- Witness for C1_mismatch_overwrite at a concrete input. -/
theorem C1_witness :
    dictLookup [("cflags", Value.vStr "ab")] "cflags" = some (Value.vStr "ab") ∧
    typeClash (Value.vList [Value.vStr "x"]) (Value.vStr "ab") = true ∧
    rMerge [("cflags", Value.vStr "ab")] "cflags" (Value.vList [Value.vStr "x"]) =
      mismatchMergeSpec [("cflags", Value.vStr "ab")] "cflags"
        (Value.vList [Value.vStr "x"]) (Value.vStr "ab") :=
  ⟨rfl, rfl, C1_mismatch_overwrite _ _ _ _ rfl rfl⟩

/-- Test evaluation examples (merge behaves like the Python code). -/
theorem mergeSection_eval_list_over_str :
    mergeSection [("cflags", Value.vList [Value.vStr "x"])] [("cflags", Value.vStr "ab")] =
    some [("cflags", Value.vList [Value.vStr "x", Value.vStr "a", Value.vStr "b"])] := rfl

theorem mergeSection_eval_nested_dict :
    mergeSection [("a", Value.vDict [("x", Value.vInt 1)])]
    [("a", Value.vDict [("x", Value.vInt 0), ("y", Value.vBool true)])] =
    some [("a", Value.vDict [("x", Value.vInt 1), ("y", Value.vBool true)])] := rfl

/-- Failure characterization of the defaults merge: the merge of a
well-formed child map into a base map raises a TypeError exactly when
some key carries a conflicting value pair on the two sides. -/
theorem merge_none_iff (child : PyDict) (hchild : keysDistinct child) :
    ∀ base : PyDict, (mergeSection child base = none ↔ mergeConflict child base) := by
  induction child with
  | nil =>
    intro base
    simp [mergeSection_nil, mergeConflict, dictLookup]
  | cons kv rest ih =>
    obtain ⟨k, v⟩ := kv
    rw [keysDistinct_cons] at hchild
    obtain ⟨hknotin, hrest⟩ := hchild
    have hkrest : dictLookup rest k = none := dictLookup_eq_none_iff.mpr hknotin
    intro base
    rw [mergeSection_cons]
    cases hb : dictLookup base k with
    | none =>
      rw [rMerge_of_lookup_none v hb]
      rw [dictInsert_of_lookup_none v hb]
      simp only []
      rw [ih hrest (base ++ [(k, v)])]
      constructor
      · rintro ⟨key, v2, bv2, h1, h2, h3⟩
        have hkey : key ≠ k := by
          intro hh
          subst hh
          rw [hkrest] at h1
          cases h1
        refine ⟨key, v2, bv2, ?_, ?_, h3⟩
        · simp [dictLookup, Ne.symm hkey, h1]
        · cases hbb : dictLookup base key with
          | none =>
            rw [dictLookup_append_of_none hbb] at h2
            simp [dictLookup, Ne.symm hkey] at h2
          | some u =>
            rw [dictLookup_append_of_some hbb] at h2
            exact h2
      · rintro ⟨key, v2, bv2, h1, h2, h3⟩
        by_cases hkey : key = k
        · subst hkey
          rw [hb] at h2
          cases h2
        · refine ⟨key, v2, bv2, ?_, dictLookup_append_of_some h2, h3⟩
          simpa [dictLookup, Ne.symm hkey] using h1
    | some bv =>
      rw [rMerge_of_lookup_some v hb]
      cases hc : combine v bv with
      | none =>
        simp only [Option.map_none']
        constructor
        · intro _
          exact ⟨k, v, bv, by simp [dictLookup], hb, hc⟩
        · intro _
          trivial
      | some w =>
        simp only [Option.map_some']
        rw [ih hrest (dictInsert base k w)]
        constructor
        · rintro ⟨key, v2, bv2, h1, h2, h3⟩
          have hkey : key ≠ k := by
            intro hh
            subst hh
            rw [hkrest] at h1
            cases h1
          rw [dictLookup_insert_ne w hkey] at h2
          refine ⟨key, v2, bv2, ?_, h2, h3⟩
          simp [dictLookup, Ne.symm hkey, h1]
        · rintro ⟨key, v2, bv2, h1, h2, h3⟩
          by_cases hkey : key = k
          · subst hkey
            simp [dictLookup] at h1
            rw [hb] at h2
            cases h2
            subst h1
            rw [hc] at h3
            cases h3
          · refine ⟨key, v2, bv2, ?_, ?_, h3⟩
            · simpa [dictLookup, Ne.symm hkey] using h1
            · rw [dictLookup_insert_ne w hkey]
              exact h2

/-- Pointwise characterization of a successful defaults merge: each key
of the result carries the merged value described by mergedLookup. -/
theorem merge_lookup (child : PyDict) (hchild : keysDistinct child) :
    ∀ base r : PyDict, mergeSection child base = some r →
      ∀ key, dictLookup r key = mergedLookup child base key := by
  induction child with
  | nil =>
    intro base r h key
    rw [mergeSection_nil] at h
    cases h
    simp [mergedLookup, dictLookup]
  | cons kv rest ih =>
    obtain ⟨k, v⟩ := kv
    rw [keysDistinct_cons] at hchild
    obtain ⟨hknotin, hrest⟩ := hchild
    have hkrest : dictLookup rest k = none := dictLookup_eq_none_iff.mpr hknotin
    intro base r h key
    rw [mergeSection_cons] at h
    cases hb : dictLookup base k with
    | none =>
      rw [rMerge_of_lookup_none v hb] at h
      simp only [] at h
      have := ih hrest (dictInsert base k v) r h key
      rw [this]
      by_cases hkey : key = k
      · subst hkey
        simp [mergedLookup, dictLookup, hkrest, hb, dictLookup_insert_self]
      · rw [mergedLookup, mergedLookup, dictLookup_insert_ne v hkey]
        simp [dictLookup, Ne.symm hkey]
    | some bv =>
      rw [rMerge_of_lookup_some v hb] at h
      cases hc : combine v bv with
      | none =>
        rw [hc] at h
        cases h
      | some w =>
        rw [hc] at h
        simp only [Option.map_some'] at h
        have := ih hrest (dictInsert base k w) r h key
        rw [this]
        by_cases hkey : key = k
        · subst hkey
          simp [mergedLookup, dictLookup, hkrest, hb, hc, dictLookup_insert_self]
        · rw [mergedLookup, mergedLookup, dictLookup_insert_ne w hkey]
          simp [dictLookup, Ne.symm hkey]

/-- Key-order characterization of a successful defaults merge: the
result lists the base keys in base order followed by the child-only
keys in child order. -/
theorem merge_keys (child : PyDict) (hchild : keysDistinct child) :
    ∀ base r : PyDict, mergeSection child base = some r →
      dkeys r = dkeys base ++ dkeys (child.filter fun kv => (dictLookup base kv.1).isNone) := by
  induction child with
  | nil =>
    intro base r h
    rw [mergeSection_nil] at h
    cases h
    simp [dkeys]
  | cons kv rest ih =>
    obtain ⟨k, v⟩ := kv
    rw [keysDistinct_cons] at hchild
    obtain ⟨hknotin, hrest⟩ := hchild
    intro base r h
    rw [mergeSection_cons] at h
    have hne : ∀ kv2 ∈ rest, kv2.1 ≠ k := by
      intro kv2 hmem hh
      exact hknotin (hh ▸ List.mem_map_of_mem Prod.fst hmem)
    cases hb : dictLookup base k with
    | none =>
      rw [rMerge_of_lookup_none v hb, dictInsert_of_lookup_none v hb] at h
      simp only [] at h
      have hkeys := ih hrest (base ++ [(k, v)]) r h
      have hfilter : (rest.filter fun kv => (dictLookup (base ++ [(k, v)]) kv.1).isNone) =
          rest.filter fun kv => (dictLookup base kv.1).isNone := by
        apply List.filter_congr
        intro kv2 hmem
        cases hbb : dictLookup base kv2.1 with
        | none =>
          rw [dictLookup_append_of_none hbb]
          simp [dictLookup, Ne.symm (hne kv2 hmem), hbb]
        | some u => rw [dictLookup_append_of_some hbb]
      rw [hkeys, hfilter]
      simp [dkeys, List.filter_cons, hb]
    | some bv =>
      rw [rMerge_of_lookup_some v hb] at h
      cases hc : combine v bv with
      | none =>
        rw [hc] at h
        cases h
      | some w =>
        rw [hc] at h
        simp only [Option.map_some'] at h
        have hkeys := ih hrest (dictInsert base k w) r h
        have hfilter : (rest.filter fun kv => (dictLookup (dictInsert base k w) kv.1).isNone) =
            rest.filter fun kv => (dictLookup base kv.1).isNone := by
          apply List.filter_congr
          intro kv2 hmem
          rw [dictLookup_insert_ne w (hne kv2 hmem)]
        rw [hkeys, hfilter, dkeys_insert_of_lookup_some w hb]
        simp [dkeys, List.filter_cons, hb]

/-- Specialization of dkeys_filter to the child-only-keys predicate of
the merge characterization (stated so that rewriting is first-order). -/
theorem dkeys_filter_lookup (d base : PyDict) :
    dkeys (d.filter fun kv => (dictLookup base kv.1).isNone) =
      (dkeys d).filter fun x => (dictLookup base x).isNone :=
  dkeys_filter d (fun x => (dictLookup base x).isNone)

/-- A successful merge of two well-formed maps is well-formed. -/
theorem merge_distinct {child base r : PyDict} (hchild : keysDistinct child)
    (hbase : keysDistinct base) (h : mergeSection child base = some r) :
    keysDistinct r := by
  have hkeys := merge_keys child hchild base r h
  rw [keysDistinct, hkeys, List.nodup_append]
  refine ⟨hbase, ?_, ?_⟩
  · rw [dkeys_filter_lookup]
    exact (List.Nodup.filter _) hchild
  · intro a ha hb
    rw [dkeys_filter_lookup] at hb
    have := List.of_mem_filter hb
    rw [Option.isNone_iff_eq_none, dictLookup_eq_none_iff] at this
    exact this ha

/-- C4.  In the defaults merge, for every key whose value is a sequence
in both the child (overriding) map and the base (default) map, the
merged value is the child's sequence elements followed by the base's
sequence elements, preserving each side's internal order, so the merged
list's length equals the sum of both sides' lengths. -/
theorem C4_sequence_merge (child base r : PyDict) (k : String) (c b : List Value)
    (hchild : keysDistinct child)
    (hc : dictLookup child k = some (Value.vList c))
    (hb : dictLookup base k = some (Value.vList b))
    (hr : mergeSection child base = some r) :
    dictLookup r k = some (Value.vList (c ++ b)) ∧
      (c ++ b).length = c.length + b.length := by
  have hl := merge_lookup child hchild base r hr k
  rw [hl]
  constructor
  · simp [mergedLookup, hc, hb, combine, pyIter]
  · simp

/-- Witness for C4_sequence_merge at a concrete input. -/
theorem C4_witness :
    keysDistinct [("srcs", Value.vList [Value.vStr "a.c"])] ∧
    mergeSection [("srcs", Value.vList [Value.vStr "a.c"])]
        [("srcs", Value.vList [Value.vStr "b.c"])] =
      some [("srcs", Value.vList [Value.vStr "a.c", Value.vStr "b.c"])] ∧
    (dictLookup [("srcs", Value.vList [Value.vStr "a.c", Value.vStr "b.c"])] "srcs" =
        some (Value.vList ([Value.vStr "a.c"] ++ [Value.vStr "b.c"])) ∧
      ([Value.vStr "a.c"] ++ [Value.vStr "b.c"]).length =
        [Value.vStr "a.c"].length + [Value.vStr "b.c"].length) :=
  ⟨by simp [keysDistinct, dkeys], rfl,
    C4_sequence_merge [("srcs", Value.vList [Value.vStr "a.c"])]
      [("srcs", Value.vList [Value.vStr "b.c"])]
      [("srcs", Value.vList [Value.vStr "a.c", Value.vStr "b.c"])] "srcs"
      [Value.vStr "a.c"] [Value.vStr "b.c"]
      (by simp [keysDistinct, dkeys]) rfl rfl rfl⟩

theorem mergedLookup_right_none {child base : PyDict} {key : String}
    (h : dictLookup base key = none) :
    mergedLookup child base key = dictLookup child key := by
  cases hc : dictLookup child key <;> simp [mergedLookup, hc, h]

theorem mergedLookup_left_none {child base : PyDict} {key : String}
    (h : dictLookup child key = none) :
    mergedLookup child base key = dictLookup base key := by
  simp [mergedLookup, h]

/-- C6.  The defaults merge is associative by key: for all well-formed
property maps A, B, C such that B has no keys in common with C, merging
A under B and the result under C yields the same result (including the
failure cases) as merging A under the result of merging B under C. -/
theorem C6_merge_assoc (A B C : PyDict) (hA : keysDistinct A) (hB : keysDistinct B)
    (hC : keysDistinct C) (hBC : ∀ k, dictLookup B k = none ∨ dictLookup C k = none) :
    ((mergeSection A B).bind fun ab => mergeSection ab C) =
      ((mergeSection B C).bind fun bc => mergeSection A bc) := by
  obtain ⟨bc, hbc⟩ : ∃ bc, mergeSection B C = some bc := by
    cases h : mergeSection B C with
    | some bc => exact ⟨bc, rfl⟩
    | none =>
      rw [merge_none_iff B hB C] at h
      obtain ⟨k, v, bv, h1, h2, _⟩ := h
      rcases hBC k with hk | hk
      · rw [h1] at hk
        cases hk
      · rw [h2] at hk
        cases hk
  have hbcLookup := merge_lookup B hB C bc hbc
  have hbcKeys := merge_keys B hB C bc hbc
  have hbcDistinct := merge_distinct hB hC hbc
  rw [hbc]
  simp only [Option.some_bind]
  cases h1 : mergeSection A B with
  | none =>
    simp only [Option.none_bind]
    rw [merge_none_iff A hA B] at h1
    obtain ⟨k, v, bv, hk1, hk2, hk3⟩ := h1
    symm
    rw [merge_none_iff A hA bc]
    refine ⟨k, v, bv, hk1, ?_, hk3⟩
    have hCk : dictLookup C k = none := by
      rcases hBC k with hk | hk
      · rw [hk2] at hk
        cases hk
      · exact hk
    rw [hbcLookup k, mergedLookup_right_none hCk]
    exact hk2
  | some ab =>
    simp only [Option.some_bind]
    have habLookup := merge_lookup A hA B ab h1
    have habKeys := merge_keys A hA B ab h1
    have habDistinct := merge_distinct hA hB h1
    cases h2 : mergeSection ab C with
    | none =>
      rw [merge_none_iff ab habDistinct C] at h2
      obtain ⟨k, w, cv, hk1, hk2, hk3⟩ := h2
      have hBk : dictLookup B k = none := by
        rcases hBC k with hk | hk
        · exact hk
        · rw [hk2] at hk
          cases hk
      have hAk : dictLookup A k = some w := by
        rw [habLookup k, mergedLookup_right_none hBk] at hk1
        exact hk1
      symm
      rw [merge_none_iff A hA bc]
      refine ⟨k, w, cv, hAk, ?_, hk3⟩
      rw [hbcLookup k, mergedLookup_left_none hBk]
      exact hk2
    | some r1 =>
      cases h3 : mergeSection A bc with
      | none =>
        exfalso
        rw [merge_none_iff A hA bc] at h3
        obtain ⟨k, v, u, hk1, hk2, hk3⟩ := h3
        rw [hbcLookup k] at hk2
        rcases hBC k with hk | hk
        · rw [mergedLookup_left_none hk] at hk2
          have habK : dictLookup ab k = some v := by
            rw [habLookup k, mergedLookup_right_none hk]
            exact hk1
          have hcontra : mergeSection ab C = none := by
            rw [merge_none_iff ab habDistinct C]
            exact ⟨k, v, u, habK, hk2, hk3⟩
          rw [h2] at hcontra
          cases hcontra
        · rw [mergedLookup_right_none hk] at hk2
          have hcontra : mergeSection A B = none := by
            rw [merge_none_iff A hA B]
            exact ⟨k, v, u, hk1, hk2, hk3⟩
          rw [h1] at hcontra
          cases hcontra
      | some r2 =>
        have hr1Distinct := merge_distinct habDistinct hC h2
        have hr1Keys := merge_keys ab habDistinct C r1 h2
        have hr2Keys := merge_keys A hA bc r2 h3
        have hr1Lookup := merge_lookup ab habDistinct C r1 h2
        have hr2Lookup := merge_lookup A hA bc r2 h3
        have hBfilter : (dkeys B).filter (fun x => (dictLookup C x).isNone) = dkeys B := by
          rw [List.filter_eq_self]
          intro x hx
          rcases hBC x with hk | hk
          · rw [dictLookup_eq_none_iff] at hk
            exact absurd hx hk
          · simp [hk]
        have hkeysEq : dkeys r1 = dkeys r2 := by
          rw [hr1Keys, hr2Keys, hbcKeys]
          rw [dkeys_filter_lookup, dkeys_filter_lookup, dkeys_filter_lookup]
          rw [habKeys, dkeys_filter_lookup]
          rw [List.filter_append, hBfilter]
          have hABfilter :
              ((dkeys A).filter fun x => (dictLookup B x).isNone).filter
                  (fun x => (dictLookup C x).isNone) =
                (dkeys A).filter fun x => (dictLookup bc x).isNone := by
            rw [List.filter_filter]
            apply List.filter_congr
            intro x hx
            rw [hbcLookup x]
            rcases hBC x with hk | hk
            · rw [mergedLookup_left_none hk]
              simp [hk]
            · rw [mergedLookup_right_none hk]
              simp [hk, Bool.and_comm]
          rw [hABfilter]
          rw [List.append_assoc]
        have hlookEq : ∀ key, dictLookup r1 key = dictLookup r2 key := by
          intro key
          rw [hr1Lookup key, hr2Lookup key]
          rcases hBC key with hk | hk
          · have hab : dictLookup ab key = dictLookup A key := by
              rw [habLookup key, mergedLookup_right_none hk]
            have hbck : dictLookup bc key = dictLookup C key := by
              rw [hbcLookup key, mergedLookup_left_none hk]
            simp [mergedLookup, hab, hbck]
          · have hbck : dictLookup bc key = dictLookup B key := by
              rw [hbcLookup key, mergedLookup_right_none hk]
            rw [mergedLookup_right_none hk, habLookup key]
            simp [mergedLookup, hbck]
        rw [dictExt hr1Distinct hkeysEq hlookEq]

/-- Witness for C6_merge_assoc at a concrete input. -/
theorem C6_witness :
    ((mergeSection [("x", Value.vStr "1"), ("l", Value.vList [Value.vStr "a"])]
          [("l", Value.vList [Value.vStr "b"])]).bind fun ab =>
        mergeSection ab [("y", Value.vInt 2)]) =
      ((mergeSection [("l", Value.vList [Value.vStr "b"])] [("y", Value.vInt 2)]).bind fun bc =>
        mergeSection [("x", Value.vStr "1"), ("l", Value.vList [Value.vStr "a"])] bc) :=
  C6_merge_assoc [("x", Value.vStr "1"), ("l", Value.vList [Value.vStr "a"])]
    [("l", Value.vList [Value.vStr "b"])] [("y", Value.vInt 2)]
    (by simp [keysDistinct, dkeys]) (by simp [keysDistinct, dkeys]) (by simp [keysDistinct, dkeys])
    (fun k => if h : "l" = k then Or.inr (by rw [← h]; rfl) else Or.inl (by simp [dictLookup, h]))

/-- C9.  For every variable-append statement: if the variable was never
previously assigned, evaluation fails with the parser's
missing-prior-definition failure; if the existing value and the appended
value differ in container kind (one a bare string, the other a list),
the string side is coerced to a single-element list before
concatenation, and the resulting value is a list containing the original
value's elements followed by the appended elements. -/
theorem C9_variable_append (vars : PyDict) (n : String) :
    (∀ v : Value, dictLookup vars n = none →
      parseVariableDef vars n v true = .error .parserException) ∧
    (∀ (s : String) (l : List Value), dictLookup vars n = some (Value.vStr s) →
      parseVariableDef vars n (Value.vList l) true =
        .ok (dictInsert vars n (Value.vList (Value.vStr s :: l)))) ∧
    (∀ (s : String) (l : List Value), dictLookup vars n = some (Value.vList l) →
      parseVariableDef vars n (Value.vStr s) true =
        .ok (dictInsert vars n (Value.vList (l ++ [Value.vStr s])))) := by
  refine ⟨?_, ?_, ?_⟩
  · intro v h
    simp [parseVariableDef, h]
  · intro s l h
    simp [parseVariableDef, h, valueTag, pyAdd]
  · intro s l h
    simp [parseVariableDef, h, valueTag, pyAdd]

/-- Witness for C9_variable_append at concrete inputs. -/
theorem C9_witness :
    parseVariableDef [] "v" (Value.vStr "y") true = .error .parserException ∧
    parseVariableDef [("v", Value.vStr "x")] "v" (Value.vList [Value.vStr "y"]) true =
      .ok [("v", Value.vList [Value.vStr "x", Value.vStr "y"])] ∧
    parseVariableDef [("v", Value.vList [Value.vStr "x"])] "v" (Value.vStr "y") true =
      .ok [("v", Value.vList [Value.vStr "x", Value.vStr "y"])] :=
  ⟨(C9_variable_append [] "v").1 (Value.vStr "y") rfl,
    (C9_variable_append [("v", Value.vStr "x")] "v").2.1 "x" [Value.vStr "y"] rfl,
    (C9_variable_append [("v", Value.vList [Value.vStr "x"])] "v").2.2 "y" [Value.vStr "x"] rfl⟩

theorem dictLookup_delete_of_none {m : PyDict} {k t : String}
    (h : dictLookup m k = none) : dictLookup (dictDelete m t) k = none := by
  induction m with
  | nil => simp [dictDelete, dictLookup]
  | cons kv rest ih =>
    obtain ⟨k2, w⟩ := kv
    by_cases hk : k2 = k
    · simp [dictLookup, hk] at h
    · simp [dictLookup, hk] at h
      by_cases ht : k2 = t
      · simp [dictDelete, ht, h]
      · simp [dictDelete, ht, dictLookup, hk, ih h]

theorem dictDelete_insert_ne {m : PyDict} {k k2 : String} (v : Value) (h : k ≠ k2) :
    dictDelete (dictInsert m k2 v) k = dictInsert (dictDelete m k) k2 v := by
  induction m with
  | nil => simp [dictInsert, dictDelete, Ne.symm h]
  | cons kv rest ih =>
    obtain ⟨k3, w⟩ := kv
    by_cases h2 : k3 = k2
    · subst h2
      simp [dictInsert, dictDelete, Ne.symm h]
    · by_cases h3 : k3 = k
      · subst h3
        simp [dictInsert, dictDelete, h2, Ne.symm h]
      · simp [dictInsert, dictDelete, h2, h3, ih]

theorem keysDistinct_insert {m : PyDict} (k : String) (v : Value)
    (h : keysDistinct m) : keysDistinct (dictInsert m k v) := by
  cases hl : dictLookup m k with
  | some w => rw [keysDistinct, dkeys_insert_of_lookup_some v hl]; exact h
  | none =>
    rw [keysDistinct, dictInsert_of_lookup_none v hl]
    rw [dictLookup_eq_none_iff] at hl
    have hkeys : dkeys (m ++ [(k, v)]) = dkeys m ++ [k] := by simp [dkeys]
    rw [hkeys, List.nodup_append]
    refine ⟨h, List.nodup_singleton k, ?_⟩
    intro a ha hak
    rw [List.mem_singleton] at hak
    subst hak
    exact hl ha

theorem keysDistinct_delete {m : PyDict} (k : String) (h : keysDistinct m) :
    dictLookup (dictDelete m k) k = none := by
  induction m with
  | nil => simp [dictDelete, dictLookup]
  | cons kv rest ih =>
    obtain ⟨k2, w⟩ := kv
    rw [keysDistinct_cons] at h
    by_cases hk : k2 = k
    · subst hk
      simp [dictDelete]
      exact dictLookup_eq_none_iff.mpr h.1
    · simp [dictDelete, hk, dictLookup, hk, ih h.2]

theorem insertAll_cons (m : PyDict) (k : String) (v : Value) (rest : List (String × Value)) :
    insertAll m ((k, v) :: rest) = insertAll (dictInsert m k v) rest := rfl

theorem dictLookup_insertAll_not_mem {fields : List (String × Value)} {k : String}
    (h : k ∉ fields.map Prod.fst) (m : PyDict) :
    dictLookup (insertAll m fields) k = dictLookup m k := by
  induction fields generalizing m with
  | nil => rfl
  | cons kv rest ih =>
    obtain ⟨k2, v⟩ := kv
    have h1 : k ≠ k2 := by
      intro hh
      exact h (by simp [hh])
    have h2 : k ∉ rest.map Prod.fst := by
      intro hh
      exact h (by simp [hh])
    rw [insertAll_cons, ih h2, dictLookup_insert_ne v h1]

theorem dictDelete_insertAll_not_mem {fields : List (String × Value)} {k : String}
    (h : k ∉ fields.map Prod.fst) (m : PyDict) :
    dictDelete (insertAll m fields) k = insertAll (dictDelete m k) fields := by
  induction fields generalizing m with
  | nil => rfl
  | cons kv rest ih =>
    obtain ⟨k2, v⟩ := kv
    have h1 : k ≠ k2 := by
      intro hh
      exact h (by simp [hh])
    have h2 : k ∉ rest.map Prod.fst := by
      intro hh
      exact h (by simp [hh])
    rw [insertAll_cons, ih h2, dictDelete_insert_ne v h1, insertAll_cons]

theorem keysDistinct_insertAll {m : PyDict} (fields : List (String × Value))
    (h : keysDistinct m) : keysDistinct (insertAll m fields) := by
  induction fields generalizing m with
  | nil => exact h
  | cons kv rest ih =>
    rw [insertAll_cons]
    exact ih (keysDistinct_insert kv.1 kv.2 h)

theorem dictLookup_insertAll_mem {fields : List (String × Value)} {k : String}
    (h : k ∈ fields.map Prod.fst) (m : PyDict) :
    ∃ w, dictLookup (insertAll m fields) k = some w := by
  induction fields generalizing m with
  | nil => simp at h
  | cons kv rest ih =>
    obtain ⟨k2, v⟩ := kv
    rw [insertAll_cons]
    by_cases hm : k ∈ rest.map Prod.fst
    · exact ih hm (dictInsert m k2 v)
    · rw [List.map_cons, List.mem_cons] at h
      have hk2 : k = k2 := by
        rcases h with h | h
        · exact h
        · exact absurd h hm
      subst hk2
      refine ⟨v, ?_⟩
      rw [dictLookup_insertAll_not_mem hm, dictLookup_insert_self]

theorem consumeTokens_missing {tokens : List String} :
    ∀ {idents : PyDict} {nameOpt : Option Value} {sdict : PyDict} {k : String},
      dictLookup idents k = none → k ∈ tokens →
      consumeTokens idents nameOpt sdict tokens = none := by
  induction tokens with
  | nil => intro _ _ _ _ _ hmem; simp at hmem
  | cons t rest ih =>
    intro idents nameOpt sdict k hnone hmem
    by_cases ht : t = k
    · subst ht
      simp [consumeTokens, hnone]
    · cases hl : dictLookup idents t with
      | none => simp [consumeTokens, hl]
      | some v =>
        have hmem2 : k ∈ rest := by
          rcases List.mem_cons.mp hmem with h | h
          · exact absurd h.symm ht
          · exact h
        have hdel : dictLookup (dictDelete idents t) k = none :=
          dictLookup_delete_of_none hnone
        by_cases hname : t = "name"
        · subst hname
          simp [consumeTokens, hl, ih hdel hmem2]
        · simp [consumeTokens, hl, hname, ih hdel hmem2]

/-- Successful token consumption over the identifiers built from a
clean (duplicate-free, nameless) field list consumes every identifier
and moves each field into the section dict in order. -/
theorem consumeTokens_clean {fields : List (String × Value)}
    (hnd : (fields.map Prod.fst).Nodup) (hno : "name" ∉ fields.map Prod.fst) :
    ∀ sdict : PyDict,
      consumeTokens (insertAll [] fields) none sdict (fields.map Prod.fst) =
        some ([], none, insertAll sdict fields) := by
  induction fields with
  | nil => intro sdict; rfl
  | cons kv rest ih =>
    obtain ⟨k, v⟩ := kv
    rw [List.map_cons, List.nodup_cons] at hnd
    have hrest : k ∉ rest.map Prod.fst := hnd.1
    have hnok : ¬k = "name" := by
      intro hh
      exact hno (by simp [hh])
    have hno2 : "name" ∉ rest.map Prod.fst := by
      intro hh
      exact hno (by simp [hh])
    intro sdict
    have hlook : dictLookup (insertAll [] ((k, v) :: rest)) k = some v := by
      rw [insertAll_cons, dictLookup_insertAll_not_mem hrest, dictLookup_insert_self]
    have hdel : dictDelete (insertAll [] ((k, v) :: rest)) k = insertAll [] rest := by
      rw [insertAll_cons, dictDelete_insertAll_not_mem hrest]
      simp [dictInsert, dictDelete]
    simp only [List.map_cons, consumeTokens, hlook, hdel, hnok, if_false]
    exact ih hnd.2 hno2 (dictInsert sdict k v)

/-- A token-consumption pass that succeeds leaves no identifier behind:
a duplicated field name would fail on its second occurrence. -/
theorem consume_ok_empty (fields : List (String × Value)) :
    ∀ (nameOpt : Option Value) (sdict : PyDict) (out : PyDict × Option Value × PyDict),
      consumeTokens (insertAll [] fields) nameOpt sdict (fields.map Prod.fst) = some out →
      out.1 = [] := by
  induction fields with
  | nil =>
    intro nameOpt sdict out h
    have h2 : some (([] : PyDict), nameOpt, sdict) = some out := h
    cases h2
    rfl
  | cons kv rest ih =>
    obtain ⟨k, v⟩ := kv
    intro nameOpt sdict out h
    rw [List.map_cons] at h
    by_cases hm : k ∈ rest.map Prod.fst
    · exfalso
      obtain ⟨w, hw⟩ := dictLookup_insertAll_mem
        (show k ∈ ((k, v) :: rest).map Prod.fst by simp) ([] : PyDict)
      have hdist : keysDistinct (insertAll ([] : PyDict) ((k, v) :: rest)) :=
        keysDistinct_insertAll _ (by simp [keysDistinct, dkeys])
      have hnone : dictLookup (dictDelete (insertAll [] ((k, v) :: rest)) k) k = none :=
        keysDistinct_delete k hdist
      by_cases hname : k = "name"
      · subst hname
        simp only [consumeTokens, hw, if_pos] at h
        rw [consumeTokens_missing hnone hm] at h
        cases h
      · simp only [consumeTokens, hw, if_neg hname] at h
        rw [consumeTokens_missing hnone hm] at h
        cases h
    · have hlook : dictLookup (insertAll [] ((k, v) :: rest)) k = some v := by
        rw [insertAll_cons, dictLookup_insertAll_not_mem hm, dictLookup_insert_self]
      have hdel : dictDelete (insertAll [] ((k, v) :: rest)) k = insertAll [] rest := by
        rw [insertAll_cons, dictDelete_insertAll_not_mem hm]
        simp [dictInsert, dictDelete]
      by_cases hname : k = "name"
      · subst hname
        simp only [consumeTokens, hlook, hdel, if_pos] at h
        exact ih _ _ _ h
      · simp only [consumeTokens, hlook, hdel, if_neg hname] at h
        exact ih _ _ _ h

/-- A successful section parse leaves the identifier dict empty when it
was empty before the section body was read. -/
theorem parseSection_idents {st st2 : PState} {ty : String}
    {fields : List (String × Value)} (h0 : st.idents = [])
    (h : parseSection st ty fields = .ok st2) : st2.idents = [] := by
  unfold parseSection at h
  rw [h0] at h
  simp only [] at h
  cases hct : consumeTokens (insertAll [] fields) none [(sectionTypeKey, Value.vStr ty)]
      (fields.map Prod.fst) with
  | none => rw [hct] at h; cases h
  | some out =>
    obtain ⟨idents2, nameOpt, sdict⟩ := out
    rw [hct] at h
    have hid : idents2 = [] := consume_ok_empty fields _ _ _ hct
    subst hid
    cases nameOpt with
    | none =>
      simp only [] at h
      cases hl : dictLookup sdict sectionTypeKey with
      | none =>
        rw [hl] at h
        cases h
      | some v =>
        rw [hl] at h
        cases v with
        | vStr t =>
          simp only [] at h
          by_cases ht : t = "soong_namespace"
          · rw [if_pos ht] at h
            cases h
            rfl
          · rw [if_neg ht] at h
            cases h
        | vBool b => cases h
        | vInt n => cases h
        | vPath p => cases h
        | vList l => cases h
        | vDict d => cases h
    | some nameVal =>
      cases nameVal with
      | vStr s =>
        simp only [] at h
        cases h
        rfl
      | vBool b => cases h
      | vInt n => cases h
      | vPath p => cases h
      | vList l => cases h
      | vDict d => cases h

theorem runParser_append (xs : List Statement) :
    ∀ (st : PState) (ys : List Statement),
      runParser st (xs ++ ys) =
        match runParser st xs with
        | (st2, none) => runParser st2 ys
        | (st2, some e) => (st2, some e) := by
  induction xs with
  | nil => intro st ys; rfl
  | cons s rest ih =>
    intro st ys
    simp only [List.cons_append, runParser]
    cases parseStatement st s with
    | ok st2 => exact ih st2 ys
    | error e => rfl

/-- Between top-level statements of a successful run, the identifier
dict is empty. -/
theorem runParser_idents (stmts : List Statement) :
    ∀ st st2, st.idents = [] → runParser st stmts = (st2, none) → st2.idents = [] := by
  induction stmts with
  | nil =>
    intro st st2 h0 h
    have h2 : (st, (none : Option PErr)) = (st2, none) := h
    injection h2 with h3 h4
    subst h3
    exact h0
  | cons s rest ih =>
    intro st st2 h0 h
    simp only [runParser] at h
    cases hps : parseStatement st s with
    | error e =>
      rw [hps] at h
      injection h with h1 h2
      cases h2
    | ok st3 =>
      rw [hps] at h
      have h3 : st3.idents = [] := by
        cases s with
        | sectionDef ty fields => exact parseSection_idents h0 hps
        | varDef n v =>
          simp only [parseStatement] at hps
          cases hpv : parseVariableDef st.vScope n v false with
          | ok vars2 =>
            rw [hpv] at hps
            cases hps
            exact h0
          | error e =>
            rw [hpv] at hps
            cases hps
        | varAppend n v =>
          simp only [parseStatement] at hps
          cases hpv : parseVariableDef st.vScope n v true with
          | ok vars2 =>
            rw [hpv] at hps
            cases hps
            exact h0
          | error e =>
            rw [hpv] at hps
            cases hps
      exact ih st3 st2 h3 h

/-- Parsing a module definition with no name field, well-formed fields
and an empty identifier dict: a soong_namespace module is dropped with
the state unchanged, any other type raises BGraphParserException. -/
theorem parseSection_no_name {st : PState} {ty : String}
    {fields : List (String × Value)} (h0 : st.idents = [])
    (hnd : (fields.map Prod.fst).Nodup) (hno : "name" ∉ fields.map Prod.fst)
    (hnt : sectionTypeKey ∉ fields.map Prod.fst) :
    parseSection st ty fields =
      if ty = "soong_namespace" then .ok st else .error .parserException := by
  have hl : dictLookup (insertAll [(sectionTypeKey, Value.vStr ty)] fields) sectionTypeKey
      = some (Value.vStr ty) := by
    rw [dictLookup_insertAll_not_mem hnt]
    simp [dictLookup]
  have hst : { st with idents := ([] : PyDict) } = st := by
    cases st with
    | mk a b c =>
      simp only [] at h0
      rw [h0]
  unfold parseSection
  rw [h0]
  simp only [consumeTokens_clean hnd hno, hl, hst]

/-- C3, counterexample.  The claim states that when a module definition
has no name field (and is not a soong_namespace), only that module is
skipped and the other modules and variable assignments of the same file
are retained.  On a file with a variable assignment, a nameless
cc_library module, and a further well-formed cc_binary module named
good, the code instead aborts the whole file: no module at all is
retained (the sections stay empty, so the module good is lost), while
the variable assignment survives only because the shared project scope
was mutated in place before the failure. -/
theorem C3_counterexample :
    parseFileModel [] []
        [Statement.varDef "x" (Value.vStr "1"),
          Statement.sectionDef "cc_library" [("srcs", Value.vList [Value.vStr "a.c"])],
          Statement.sectionDef "cc_binary"
            [("name", Value.vStr "good"), ("srcs", Value.vList [Value.vStr "b.c"])]]
        "proj" "p/Android.bp" (some "p") =
      .ok ([], [("x", Value.vStr "1")]) := rfl

/-- C3, amended.  For a build-definition file containing a module
definition with well-formed fields and no name field: if the module's
type is soong_namespace, the module is silently dropped and the file
parses as if the module were absent; otherwise the parse fails with
MissingNameFailure (BGraphParserException) and the whole file's module
contributions are discarded — none of the file's modules are retained —
while the variable assignments evaluated before the failure survive in
the shared project scope. -/
theorem C3_nameless_module (pre post : List Statement) (ty : String)
    (fields : List (String × Value)) (vars : PyDict) (origSections : Sections)
    (pn fp : String) (pp : Option String) (st : PState)
    (hpre : runParser (initPState vars) pre = (st, none))
    (hnd : (fields.map Prod.fst).Nodup)
    (hno : "name" ∉ fields.map Prod.fst)
    (hnt : sectionTypeKey ∉ fields.map Prod.fst) :
    (ty = "soong_namespace" →
      parseFileModel origSections vars (pre ++ Statement.sectionDef ty fields :: post) pn fp pp =
        parseFileModel origSections vars (pre ++ post) pn fp pp) ∧
    (ty ≠ "soong_namespace" →
      parseFileModel origSections vars (pre ++ Statement.sectionDef ty fields :: post) pn fp pp =
        .ok (origSections, st.vScope)) := by
  have hid : st.idents = [] := runParser_idents pre _ _ rfl hpre
  have hps := @parseSection_no_name st ty fields hid hnd hno hnt
  constructor
  · intro hty
    have h1 : runParser (initPState vars) (pre ++ Statement.sectionDef ty fields :: post) =
        runParser (initPState vars) (pre ++ post) := by
      rw [runParser_append, runParser_append, hpre]
      simp only [runParser, parseStatement, hps, if_pos hty]
    unfold parseFileModel
    rw [h1]
  · intro hty
    have h1 : runParser (initPState vars) (pre ++ Statement.sectionDef ty fields :: post) =
        (st, some PErr.parserException) := by
      rw [runParser_append, hpre]
      simp only [runParser, parseStatement, hps, if_neg hty]
    unfold parseFileModel
    rw [h1]

/-- Witness for C3_nameless_module at concrete inputs: a nameless
soong_namespace module is dropped and the file parses as if it were
absent; a nameless cc_library module discards the file, keeping the
variable and no module. -/
theorem C3_witness :
    (parseFileModel [] []
        [Statement.varDef "x" (Value.vStr "1"),
          Statement.sectionDef "soong_namespace" [("imports", Value.vList [])]]
        "p" "f" none =
      parseFileModel [] [] [Statement.varDef "x" (Value.vStr "1")] "p" "f" none) ∧
    (parseFileModel [] []
        [Statement.varDef "x" (Value.vStr "1")
          , Statement.sectionDef "cc_library" [("srcs", Value.vList [])]]
        "p" "f" none =
      .ok ([], [("x", Value.vStr "1")])) :=
  ⟨(C3_nameless_module [Statement.varDef "x" (Value.vStr "1")] [] "soong_namespace"
      [("imports", Value.vList [])] [] [] "p" "f" none
      ⟨[("x", Value.vStr "1")], [], []⟩ rfl (by decide) (by decide) (by decide)).1 rfl,
    (C3_nameless_module [Statement.varDef "x" (Value.vStr "1")] [] "cc_library"
      [("srcs", Value.vList [])] [] [] "p" "f" none
      ⟨[("x", Value.vStr "1")], [], []⟩ rfl (by decide) (by decide) (by decide)).2
      (by decide)⟩

/-- Sufficient fuel is irrelevant to the glob matcher. -/
theorem globMatchF_irrel (n : Nat) :
    ∀ (m : Nat) (p s : List Char), p.length + s.length < n → p.length + s.length < m →
      globMatchF n p s = globMatchF m p s := by
  induction n using Nat.strong_induction_on with
  | _ n ih =>
    intro m p s hn hm
    cases n with
    | zero => omega
    | succ n2 =>
      cases m with
      | zero => omega
      | succ m2 =>
        cases p with
        | nil => rfl
        | cons a ps =>
          simp only [globMatchF]
          by_cases ha : a = '*'
          · rw [if_pos ha, if_pos ha]
            cases s with
            | nil =>
              simp only [List.length_cons, List.length_nil] at hn hm
              exact ih n2 (Nat.lt_succ_self n2) m2 ps []
                (by simp only [List.length_nil]; omega)
                (by simp only [List.length_nil]; omega)
            | cons c cs =>
              simp only [List.length_cons] at hn hm
              simp only []
              rw [ih n2 (Nat.lt_succ_self n2) m2 ps (c :: cs)
                  (by simp only [List.length_cons]; omega)
                  (by simp only [List.length_cons]; omega),
                ih n2 (Nat.lt_succ_self n2) m2 (a :: ps) cs
                  (by simp only [List.length_cons]; omega)
                  (by simp only [List.length_cons]; omega)]
          · rw [if_neg ha, if_neg ha]
            cases s with
            | nil => rfl
            | cons c cs =>
              simp only [List.length_cons] at hn hm
              simp only []
              by_cases hq : a = '?'
              · rw [if_pos hq, if_pos hq]
                exact ih n2 (Nat.lt_succ_self n2) m2 ps cs (by omega) (by omega)
              · rw [if_neg hq, if_neg hq,
                  ih n2 (Nat.lt_succ_self n2) m2 ps cs (by omega) (by omega)]

/-- A wildcard-free pattern glob-matches exactly itself. -/
theorem globMatchF_literal :
    ∀ (pat s : List Char) (fuel : Nat), pat.length + s.length < fuel →
      (∀ c ∈ pat, c ≠ '*' ∧ c ≠ '?') →
      globMatchF fuel pat s = decide (pat = s) := by
  intro pat
  induction pat with
  | nil =>
    intro s fuel hf _
    cases fuel with
    | zero => omega
    | succ f =>
      cases s with
      | nil => simp [globMatchF]
      | cons c cs => simp [globMatchF]
  | cons a ps ih =>
    intro s fuel hf hw
    have ha : a ≠ '*' ∧ a ≠ '?' := hw a (by simp)
    cases fuel with
    | zero => omega
    | succ f =>
      simp only [globMatchF, if_neg ha.1]
      cases s with
      | nil => simp
      | cons c cs =>
        simp only []
        rw [if_neg ha.2]
        simp only [List.length_cons] at hf
        rw [ih cs f (by omega) (fun c2 hc2 => hw c2 (by simp [hc2]))]
        by_cases hac : a = c
        · subst hac
          simp
        · simp [hac]

theorem globMatch_literal (pat s : List Char)
    (h : ∀ c ∈ pat, c ≠ '*' ∧ c ≠ '?') :
    globMatch pat s = decide (pat = s) :=
  globMatchF_literal pat s _ (Nat.lt_succ_self _) h

theorem stripDots_id {l : List Char} (h : charsStart l ['.'] = false) :
    stripDots l = l := by
  have h2 : charsStart l ['.', '/'] = false := by
    cases l with
    | nil => rfl
    | cons c cs =>
      simp [charsStart] at h
      simp [charsStart, h]
  simp [stripDots, h, h2]

theorem replaceSS_id : ∀ (l : List Char), (∀ c ∈ l, c ≠ '*') → replaceSS l = l
  | [], _ => rfl
  | [_], _ => rfl
  | [_, _], _ => rfl
  | c :: d :: e :: rest, h => by
    have hc : c ≠ '*' := h c (by simp)
    rw [replaceSS, if_neg (fun hh => hc hh.1),
      replaceSS_id (d :: e :: rest) (fun x hx => h x (by simp at hx ⊢; tauto))]

theorem charsStart_append_self (a : List Char) (b : List Char) :
    charsStart (a ++ b) a = true := by
  induction a with
  | nil => cases b <;> rfl
  | cons c cs ih => simp [charsStart, ih]

theorem charsStart_append_both (a : List Char) (b c : List Char) :
    charsStart (a ++ b) (a ++ c) = charsStart b c := by
  induction a with
  | nil => rfl
  | cons x xs ih => simp [charsStart, ih]

theorem stringMk_data (s : String) : String.mk s.data = s := rfl

theorem pathJoin_data (a b : String) : (pathJoin a b).data = a.data ++ '/' :: b.data := by
  simp [pathJoin, String.data_append]

theorem filterMap_id_of {α : Type} {f : α → Option α} :
    ∀ {l : List α}, (∀ x ∈ l, f x = some x) → l.filterMap f = l := by
  intro l
  induction l with
  | nil => intro _; rfl
  | cons x rest ih =>
    intro h
    rw [List.filterMap_cons, h x (by simp), ih (fun y hy => h y (by simp [hy]))]

theorem parentRev_skip {l : List Char} (r : List Char) (h : ∀ c ∈ l, c ≠ '/') :
    parentRev (l ++ '/' :: r) = some r := by
  induction l with
  | nil => simp [parentRev]
  | cons c cs ih =>
    have hc : c ≠ '/' := h c (by simp)
    simp only [List.cons_append, parentRev, if_neg hc]
    exact ih (fun x hx => h x (by simp [hx]))

theorem parent_pathJoin (p fn : String) (h : ∀ c ∈ fn.data, c ≠ '/') :
    pathParent (pathJoin p fn) = p := by
  unfold pathParent
  rw [pathJoin_data]
  have hrev : (p.data ++ '/' :: fn.data).reverse = fn.data.reverse ++ '/' :: p.data.reverse := by
    simp
  rw [hrev, parentRev_skip p.data.reverse (fun c hc => h c (List.mem_reverse.mp hc))]
  simp [stringMk_data]

theorem computeFileList_self (pp : String) (files : List String) :
    computeFileList [] pp pp files = ([(pp, files)], files) := by
  have hfm : files.filterMap (fun f =>
      if charsStart (pathJoin pp f).data pp.data then relativeToStr (pathJoin pp f) pp
      else none) = files := by
    apply filterMap_id_of
    intro f _
    have hstart : charsStart (pathJoin pp f).data pp.data = true := by
      rw [pathJoin_data]
      exact charsStart_append_self pp.data ('/' :: f.data)
    rw [if_pos hstart]
    unfold relativeToStr
    have hne : ¬(pathJoin pp f).data = pp.data := by
      rw [pathJoin_data]
      intro hh
      have := congrArg List.length hh
      simp at this
    rw [if_neg hne]
    have hstart2 : charsStart (pathJoin pp f).data (pp.data ++ ['/']) = true := by
      rw [pathJoin_data, show pp.data ++ '/' :: f.data = (pp.data ++ ['/']) ++ f.data by simp]
      exact charsStart_append_self (pp.data ++ ['/']) f.data
    rw [if_pos hstart2, pathJoin_data]
    have hdrop : (pp.data ++ '/' :: f.data).drop (pp.data.length + 1) = f.data := by
      rw [show pp.data ++ '/' :: f.data = (pp.data ++ ['/']) ++ f.data by simp]
      rw [show pp.data.length + 1 = (pp.data ++ ['/']).length by simp]
      exact List.drop_left (pp.data ++ ['/']) f.data
    rw [hdrop, stringMk_data]
  simp only [computeFileList, cacheLookup]
  rw [hfm]
  rfl

/-- C7.  For every source-class key whose name contains dirs, each
string value is treated as every-descendant-under-that-path by appending
a trailing * wildcard before glob matching; in particular, with
candidate file listing a/b.h, a/c/d.h, x/y.h and value a under each of
the include-directory keys, the matched files are exactly a/b.h and
a/c/d.h, each contributing a source-tagged edge from its full path to
the module. -/
theorem C7_dirs_trailing_star :
    (∀ key dep : String, strContains key "dirs" = true →
      srcPattern key dep = replaceSS (stripDots (dep.data ++ ['*']))) ∧
    (∀ key, key ∈ ["include_dirs", "local_include_dirs", "export_include_dirs"] →
      convertSection [] [] "mod"
          [(sectionTypeKey, Value.vStr "cc_library"),
            (sectionProjectKey, Value.vStr "proj"),
            (soongFileKey, Value.vPath "p/Android.bp"),
            (sectionProjectPathKey, Value.vPath "p"),
            (key, Value.vList [Value.vStr "a"])]
          ["a/b.h", "a/c/d.h", "x/y.h"] =
        some ([("p", ["a/b.h", "a/c/d.h", "x/y.h"])],
          [("p/a/b.h", "mod", EType.src), ("p/a/c/d.h", "mod", EType.src)])) := by
  constructor
  · intro key dep h
    simp [srcPattern, h]
  · intro key hk
    fin_cases hk <;> decide

/-- Witness for C7_dirs_trailing_star at a concrete input. -/
theorem C7_witness :
    strContains "include_dirs" "dirs" = true ∧
    srcPattern "include_dirs" "a" = replaceSS (stripDots ("a".data ++ ['*'])) ∧
    convertSection [] [] "mod"
        [(sectionTypeKey, Value.vStr "cc_library"),
          (sectionProjectKey, Value.vStr "proj"),
          (soongFileKey, Value.vPath "p/Android.bp"),
          (sectionProjectPathKey, Value.vPath "p"),
          ("include_dirs", Value.vList [Value.vStr "a"])]
        ["a/b.h", "a/c/d.h", "x/y.h"] =
      some ([("p", ["a/b.h", "a/c/d.h", "x/y.h"])],
        [("p/a/b.h", "mod", EType.src), ("p/a/c/d.h", "mod", EType.src)]) :=
  ⟨rfl, C7_dirs_trailing_star.1 "include_dirs" "a" rfl,
    C7_dirs_trailing_star.2 "include_dirs" (by decide)⟩

theorem addEdge_of_not_mem {es : List Edge} {u v : String} (t : EType)
    (h : ∀ e ∈ es, ¬(e.1 = u ∧ e.2.1 = v)) : addEdge es u v t = es ++ [(u, v, t)] := by
  unfold addEdge
  rw [if_neg]
  intro hany
  rw [List.any_eq_true] at hany
  obtain ⟨e, hmem, he⟩ := hany
  simp at he
  exact h e hmem he

/-- Folding add_edge over distinct origins appends one edge each. -/
theorem addEdge_fold (name : String) (t : EType) :
    ∀ (vals : List String) (es : List Edge), vals.Nodup →
      (∀ s ∈ vals, ∀ e ∈ es, ¬(e.1 = s ∧ e.2.1 = name)) →
      vals.foldl (fun acc s => addEdge acc s name t) es =
        es ++ vals.map (fun s => (s, name, t)) := by
  intro vals
  induction vals with
  | nil => intro es _ _; simp
  | cons s rest ih =>
    intro es hnd h
    rw [List.nodup_cons] at hnd
    rw [List.foldl_cons, addEdge_of_not_mem t (h s (by simp))]
    rw [ih (es ++ [(s, name, t)]) hnd.2]
    · simp
    · intro s2 hs2 e hmem
      rw [List.mem_append] at hmem
      rcases hmem with hmem | hmem
      · exact h s2 (by simp [hs2]) e hmem
      · rw [List.mem_singleton] at hmem
        subst hmem
        intro hcon
        simp at hcon
        subst hcon
        exact hnd.1 hs2

/-- The dependency-edge loop on a list of string values is a fold of
add_edge. -/
theorem depEdges_strings (name : String) :
    ∀ (vals : List String) (es : List Edge),
      depEdges es name (vals.map Value.vStr) =
        some (vals.foldl (fun acc s => addEdge acc s name EType.dep) es) := by
  intro vals
  induction vals with
  | nil => intro es; rfl
  | cons s rest ih => intro es; simp only [List.map_cons, depEdges, ih, List.foldl_cons]

/-- C8.  Every string value in a list under a dependency-class key of a
module variant yields an edge tagged dependency whose origin is that
literal string and whose destination is the consuming module's name.
No glob matching is applied and no check that a module of that name
exists is made (the embedding consults no module table at all), so a
dangling edge is produced rather than an error, and every edge points
from the depended-upon entity to the dependent module. -/
theorem C8_dependency_edges (name pn sf pp k : String) (vals : List String)
    (files : List String) (hk : k ∈ dependenciesKeys) (hnd : vals.Nodup) :
    convertSection [] [] name
        [(sectionTypeKey, Value.vStr "cc_library"),
          (sectionProjectKey, Value.vStr pn),
          (soongFileKey, Value.vPath sf),
          (sectionProjectPathKey, Value.vPath pp),
          (k, Value.vList (vals.map Value.vStr))]
        files =
      some ([], vals.map (fun s => (s, name, EType.dep))) := by
  have hdep : dependenciesKeys.contains k = true := by
    fin_cases hk <;> rfl
  have h0 : convertSection [] [] name
      [(sectionTypeKey, Value.vStr "cc_library"),
        (sectionProjectKey, Value.vStr pn),
        (soongFileKey, Value.vPath sf),
        (sectionProjectPathKey, Value.vPath pp),
        (k, Value.vList (vals.map Value.vStr))] files =
      convertPairs [] [] name (pathParent sf) (Value.vPath pp) files
        [(k, Value.vList (vals.map Value.vStr))] := rfl
  rw [h0]
  simp only [convertPairs, hdep, if_true, pyIter]
  rw [depEdges_strings name vals []]
  rw [addEdge_fold name EType.dep vals [] hnd (by intro s _ e he; cases he)]
  simp [convertPairs]

/-- Witness for C8_dependency_edges at a concrete input. -/
theorem C8_witness :
    "static_libs" ∈ dependenciesKeys ∧
    convertSection [] [] "app"
        [(sectionTypeKey, Value.vStr "cc_library"),
          (sectionProjectKey, Value.vStr "proj"),
          (soongFileKey, Value.vPath "p/Android.bp"),
          (sectionProjectPathKey, Value.vPath "p"),
          ("static_libs", Value.vList (["libfoo", "libbar"].map Value.vStr))]
        ["main.c"] =
      some ([], ["libfoo", "libbar"].map (fun s => (s, "app", EType.dep))) :=
  ⟨by decide,
    C8_dependency_edges "app" "proj" "p/Android.bp" "p" "static_libs"
      ["libfoo", "libbar"] ["main.c"] (by decide) (by decide)⟩

theorem foldl_addEdge_const (u v : String) (t : EType) (g : String → String) :
    ∀ (l : List String), l ≠ [] → (∀ x ∈ l, g x = u) →
      l.foldl (fun acc f => addEdge acc (g f) v t) [] = [(u, v, t)] := by
  have step : ∀ (l : List String), (∀ x ∈ l, g x = u) →
      l.foldl (fun acc f => addEdge acc (g f) v t) [(u, v, t)] = [(u, v, t)] := by
    intro l
    induction l with
    | nil => intro _; rfl
    | cons x rest ih =>
      intro h
      rw [List.foldl_cons, h x (by simp)]
      have hae : addEdge [(u, v, t)] u v t = [(u, v, t)] := by simp [addEdge]
      rw [hae]
      exact ih (fun y hy => h y (by simp [hy]))
  intro l hne h
  cases l with
  | nil => exact absurd rfl hne
  | cons x rest =>
    rw [List.foldl_cons, h x (by simp)]
    have hae : addEdge [] u v t = [(u, v, t)] := rfl
    rw [hae]
    exact step rest (fun y hy => h y (by simp [hy]))

/-- C5, counterexample.  The claim states that a module whose only
property is a source list with one literal filename gets exactly one
source edge whenever that filename is present verbatim in the
directory's file listing.  For the literal filename .profile, present
verbatim in the listing, the prefix-stripping step turns the pattern
into profile, which no longer glob-matches .profile, so the builder adds
zero edges instead of the claimed one. -/
theorem C5_counterexample :
    convertSection [] [] "mod"
        [(sectionTypeKey, Value.vStr "cc_binary"),
          (sectionProjectKey, Value.vStr "proj"),
          (soongFileKey, Value.vPath "p/Android.bp"),
          (sectionProjectPathKey, Value.vPath "p"),
          ("srcs", Value.vList [Value.vStr ".profile"])]
        [".profile"] =
      some ([("p", [".profile"])], []) ∧
    ([] : List Edge) ≠ [("p/.profile", "mod", EType.src)] := by
  constructor
  · decide
  · decide

/-- C5, amended.  For a module whose only property is a srcs list with
one literal filename — containing none of fnmatch's metacharacters '*',
'?' and '[' (a '[' would start a character class, so such a filename
does not match itself) and not beginning with a dot, which the
prefix-stripping step would mangle — the builder adds exactly one
source-tagged edge from the file's full path string to the module's
name when the filename appears verbatim in the project file listing of
the module's build-file directory, and zero edges when it is absent. -/
theorem C5_literal_source (name pn pp fn : String) (files : List String)
    (hdot : charsStart fn.data ['.'] = false)
    (hwild : ∀ c ∈ fn.data, c ≠ '*' ∧ c ≠ '?' ∧ c ≠ '[') :
    convertSection [] [] name
        [(sectionTypeKey, Value.vStr "cc_binary"),
          (sectionProjectKey, Value.vStr pn),
          (soongFileKey, Value.vPath (pathJoin pp "Android.bp")),
          (sectionProjectPathKey, Value.vPath pp),
          ("srcs", Value.vList [Value.vStr fn])]
        files =
      some ([(pp, files)],
        if fn ∈ files then [(pathJoin pp fn, name, EType.src)] else []) := by
  have h0 : convertSection [] [] name
      [(sectionTypeKey, Value.vStr "cc_binary"),
        (sectionProjectKey, Value.vStr pn),
        (soongFileKey, Value.vPath (pathJoin pp "Android.bp")),
        (sectionProjectPathKey, Value.vPath pp),
        ("srcs", Value.vList [Value.vStr fn])] files =
      (match srcEdges [] [] name (pathParent (pathJoin pp "Android.bp")) pp files "srcs"
          [Value.vStr fn] with
        | none => none
        | some res => some res) := rfl
  rw [h0, parent_pathJoin pp "Android.bp" (by decide)]
  have h1 : srcEdges [] [] name pp pp files "srcs" [Value.vStr fn] =
      some ([(pp, files)],
        (files.filter (fun f => globMatch (srcPattern "srcs" fn) f.data)).foldl
          (fun acc f => addEdge acc (pathJoin pp f) name EType.src) []) := by
    simp only [srcEdges, computeFileList_self]
  rw [h1]
  have hww : ∀ c ∈ fn.data, c ≠ '*' ∧ c ≠ '?' :=
    fun c hc => ⟨(hwild c hc).1, (hwild c hc).2.1⟩
  have hpat : srcPattern "srcs" fn = fn.data := by
    rw [show srcPattern "srcs" fn = replaceSS (stripDots fn.data) from rfl,
      stripDots_id hdot, replaceSS_id fn.data (fun c hc => (hwild c hc).1)]
  rw [hpat]
  have hfilter : files.filter (fun f => globMatch fn.data f.data) =
      files.filter (fun f => decide (fn = f)) := by
    apply List.filter_congr
    intro f _
    rw [globMatch_literal fn.data f.data hww]
    by_cases h : fn = f
    · subst h
      simp
    · have h2 : ¬fn.data = f.data := by
        intro hh
        apply h
        cases fn with
        | mk d1 =>
          cases f with
          | mk d2 =>
            simp only [] at hh
            rw [hh]
      simp [h, h2]
  rw [hfilter]
  by_cases hmem : fn ∈ files
  · rw [if_pos hmem]
    have hne : files.filter (fun f => decide (fn = f)) ≠ [] := by
      intro hh
      have hin : fn ∈ files.filter (fun f => decide (fn = f)) :=
        List.mem_filter.mpr ⟨hmem, by simp⟩
      rw [hh] at hin
      cases hin
    have hall : ∀ x ∈ files.filter (fun f => decide (fn = f)), pathJoin pp x = pathJoin pp fn := by
      intro x hx
      have := List.of_mem_filter hx
      simp at this
      rw [this]
    rw [foldl_addEdge_const (pathJoin pp fn) name EType.src (fun f => pathJoin pp f)
      (files.filter (fun f => decide (fn = f))) hne hall]
  · rw [if_neg hmem]
    have hnil : files.filter (fun f => decide (fn = f)) = [] := by
      rw [List.filter_eq_nil_iff]
      intro f hf
      simp
      intro hh
      exact hmem (hh ▸ hf)
    rw [hnil]
    rfl

/-- Witness for C5_literal_source at concrete inputs, one with the
filename present and one with it absent. -/
theorem C5_witness :
    convertSection [] [] "mod"
        [(sectionTypeKey, Value.vStr "cc_binary"),
          (sectionProjectKey, Value.vStr "proj"),
          (soongFileKey, Value.vPath (pathJoin "p" "Android.bp")),
          (sectionProjectPathKey, Value.vPath "p"),
          ("srcs", Value.vList [Value.vStr "main.c"])]
        ["main.c", "other.c"] =
      some ([("p", ["main.c", "other.c"])],
        if "main.c" ∈ ["main.c", "other.c"] then [(pathJoin "p" "main.c", "mod", EType.src)]
        else []) ∧
    convertSection [] [] "mod"
        [(sectionTypeKey, Value.vStr "cc_binary"),
          (sectionProjectKey, Value.vStr "proj"),
          (soongFileKey, Value.vPath (pathJoin "p" "Android.bp")),
          (sectionProjectPathKey, Value.vPath "p"),
          ("srcs", Value.vList [Value.vStr "main.c"])]
        ["other.c"] =
      some ([("p", ["other.c"])],
        if "main.c" ∈ ["other.c"] then [(pathJoin "p" "main.c", "mod", EType.src)]
        else []) :=
  ⟨C5_literal_source "mod" "proj" "p" "main.c" ["main.c", "other.c"] (by decide)
      (by decide),
    C5_literal_source "mod" "proj" "p" "main.c" ["other.c"] (by decide) (by decide)⟩

/- ### C2: cyclic defaults references -/

theorem cyc_noFuel : ∀ fuel : Nat,
    retrieveGo fuel cyclicSecs "A" = Except.error RErr.noFuel ∧
    retrieveGo fuel cyclicSecs "B" = Except.error RErr.noFuel
  | 0 => ⟨rfl, rfl⟩
  | 1 => ⟨rfl, rfl⟩
  | 2 => ⟨rfl, rfl⟩
  | p + 3 => by
    obtain ⟨ihA, ihB⟩ := cyc_noFuel p
    have hsA : secLookup cyclicSecs "A" = some [[("defaults", Value.vStr "B")]] := rfl
    have hsB : secLookup cyclicSecs "B" = some [[("defaults", Value.vStr "A")]] := rfl
    have hfA : (secLookup cyclicSecs "A").bind (fun l => l[0]?) =
        some [("defaults", Value.vStr "B")] := rfl
    have hfB : (secLookup cyclicSecs "B").bind (fun l => l[0]?) =
        some [("defaults", Value.vStr "A")] := rfl
    have hdA : dictLookup [("defaults", Value.vStr "B")] "defaults" =
        some (Value.vStr "B") := rfl
    have hdB : dictLookup [("defaults", Value.vStr "A")] "defaults" =
        some (Value.vStr "A") := rfl
    have hrA : List.range ([[("defaults", Value.vStr "B")]] : List PyDict).length =
        [0] := rfl
    have hrB : List.range ([[("defaults", Value.vStr "A")]] : List PyDict).length =
        [0] := rfl
    have hA3 : retrieveDefaults (p + 1) cyclicSecs [("defaults", Value.vStr "B")]
        [Value.vStr "B"] = Except.error RErr.noFuel := by
      simp only [retrieveDefaults, ihB]
    have hB3 : retrieveDefaults (p + 1) cyclicSecs [("defaults", Value.vStr "A")]
        [Value.vStr "A"] = Except.error RErr.noFuel := by
      simp only [retrieveDefaults, ihA]
    have hA2 : retrieveLoop (p + 2) cyclicSecs "A" [0] = Except.error RErr.noFuel := by
      simp only [retrieveLoop, hfA, hdA, hA3]
    have hB2 : retrieveLoop (p + 2) cyclicSecs "B" [0] = Except.error RErr.noFuel := by
      simp only [retrieveLoop, hfB, hdB, hB3]
    exact ⟨by simp only [retrieveGo, hsA, hrA, hA2],
      by simp only [retrieveGo, hsB, hrB, hB2]⟩

/-- C2: on two parsed modules whose defaults references form a two-cycle
(module A lists B in defaults and B lists A), resolving either module's
section never completes: for every recursion depth budget the embedded
_retrieve_section exhausts it, modelling the Python method recursing
without bound (a RecursionError in CPython) instead of terminating with
a CyclicDefaultsFailure, an exception that does not exist in the code. -/
theorem C2_cycle_unbounded (fuel : Nat) :
    retrieveGo fuel cyclicSecs "A" = Except.error RErr.noFuel ∧
    retrieveGo fuel cyclicSecs "B" = Except.error RErr.noFuel :=
  cyc_noFuel fuel

/- ### C10: frame behaviour of the heap merge -/

theorem freshAddr_cons (x : Nat) (dx : HDict) (st : Store) :
    freshAddr ((x, dx) :: st) = max (x + 1) (freshAddr st) := rfl

theorem storeLookup_lt_fresh {st : Store} {a : Nat} {d : HDict}
    (h : storeLookup st a = some d) : a < freshAddr st := by
  induction st with
  | nil => simp [storeLookup] at h
  | cons p rest ih =>
    obtain ⟨x, dx⟩ := p
    simp only [storeLookup] at h
    rw [freshAddr_cons]
    by_cases hx : a = x
    · exact Nat.lt_of_lt_of_le (by omega) (Nat.le_max_left _ _)
    · rw [if_neg hx] at h
      exact Nat.lt_of_lt_of_le (ih h) (Nat.le_max_right _ _)

theorem storeSet_lookup_ne {st : Store} {y : Nat} {d : HDict} {x : Nat} (h : x ≠ y) :
    storeLookup (storeSet st y d) x = storeLookup st x := by
  induction st with
  | nil => rfl
  | cons p rest ih =>
    obtain ⟨a, da⟩ := p
    simp only [storeSet]
    by_cases ha : a = y
    · rw [if_pos ha]
      have hxa : ¬ (x = a) := fun hh => h (hh.trans ha)
      simp only [storeLookup, if_neg hxa]
    · rw [if_neg ha]
      simp only [storeLookup]
      by_cases hxa : x = a
      · rw [if_pos hxa, if_pos hxa]
      · rw [if_neg hxa, if_neg hxa]; exact ih

theorem storeSet_lookup_self {st : Store} {y : Nat} {d : HDict} :
    storeLookup (storeSet st y d) y = (storeLookup st y).map (fun _ => d) := by
  induction st with
  | nil => rfl
  | cons p rest ih =>
    obtain ⟨a, da⟩ := p
    simp only [storeSet]
    by_cases ha : a = y
    · rw [if_pos ha]
      simp only [storeLookup]
      rw [if_pos ha.symm, if_pos ha.symm]
      rfl
    · rw [if_neg ha]
      simp only [storeLookup]
      have hya : ¬ (y = a) := fun hh => ha hh.symm
      rw [if_neg hya, if_neg hya]
      exact ih

theorem freshAddr_storeSet (st : Store) (y : Nat) (d : HDict) :
    freshAddr (storeSet st y d) = freshAddr st := by
  induction st with
  | nil => rfl
  | cons p rest ih =>
    obtain ⟨a, da⟩ := p
    simp only [storeSet]
    by_cases ha : a = y
    · rw [if_pos ha, freshAddr_cons, freshAddr_cons]
    · rw [if_neg ha, freshAddr_cons, freshAddr_cons, ih]

theorem memoLookup_mem {memo : List (Nat × Nat)} {a b : Nat}
    (h : memoLookup memo a = some b) : (a, b) ∈ memo := by
  induction memo with
  | nil => simp [memoLookup] at h
  | cons q rest ih =>
    obtain ⟨x, y⟩ := q
    simp only [memoLookup] at h
    by_cases hx : a = x
    · rw [if_pos hx] at h
      cases h
      rw [hx]
      exact List.mem_cons_self _ _
    · rw [if_neg hx] at h
      exact List.mem_cons_of_mem _ (ih h)

theorem dictLookupH_refs {d : HDict} {key : String} {v : HValue}
    (h : dictLookupH d key = some v) : ∀ r ∈ hvRefs v, r ∈ dictRefs d := by
  induction d with
  | nil => simp [dictLookupH] at h
  | cons e rest ih =>
    obtain ⟨k, w⟩ := e
    simp only [dictLookupH] at h
    intro r hr
    simp only [dictRefs, List.mem_append]
    by_cases hk : k = key
    · rw [if_pos hk] at h
      cases h
      exact Or.inl hr
    · rw [if_neg hk] at h
      exact Or.inr (ih h r hr)

theorem dictRefs_insert {d : HDict} {key : String} {v : HValue} :
    ∀ r ∈ dictRefs (dictInsertH d key v), r ∈ dictRefs d ∨ r ∈ hvRefs v := by
  induction d with
  | nil =>
    intro r hr
    simp only [dictInsertH, dictRefs, List.append_nil] at hr
    exact Or.inr hr
  | cons e rest ih =>
    obtain ⟨k, w⟩ := e
    intro r hr
    simp only [dictInsertH] at hr
    by_cases hk : k = key
    · rw [if_pos hk] at hr
      simp only [dictRefs, List.mem_append] at hr ⊢
      rcases hr with h1 | h2
      · exact Or.inr h1
      · exact Or.inl (Or.inr h2)
    · rw [if_neg hk] at hr
      simp only [dictRefs, List.mem_append] at hr ⊢
      rcases hr with h1 | h2
      · exact Or.inl (Or.inl h1)
      · rcases ih r h2 with h3 | h4
        · exact Or.inl (Or.inr h3)
        · exact Or.inr h4

theorem hvListRefs_append (l1 l2 : List HValue) :
    hvListRefs (l1 ++ l2) = hvListRefs l1 ++ hvListRefs l2 := by
  induction l1 with
  | nil => rfl
  | cons v rest ih =>
    simp only [List.cons_append, hvListRefs, List.append_eq, ih, List.append_assoc]

theorem hvListRefs_chars (l : List Char) :
    hvListRefs (l.map (fun c => HValue.hStr (String.mk [c]))) = [] := by
  induction l with
  | nil => rfl
  | cons c rest ih =>
    simp only [List.map_cons, hvListRefs, hvRefs, ih]
    rfl

theorem hvListRefs_keys (d : HDict) :
    hvListRefs (d.map (fun e => HValue.hStr e.1)) = [] := by
  induction d with
  | nil => rfl
  | cons e rest ih =>
    simp only [List.map_cons, hvListRefs, hvRefs, ih]
    rfl

theorem hIter_refs {st : Store} {v : HValue} {tail : List HValue}
    (h : hIter st v = some tail) : ∀ r ∈ hvListRefs tail, r ∈ hvRefs v := by
  cases v with
  | hStr s =>
    simp only [hIter] at h
    cases h
    intro r hr
    rw [hvListRefs_chars] at hr
    exact absurd hr (List.not_mem_nil r)
  | hList l =>
    simp only [hIter] at h
    cases h
    intro r hr
    exact hr
  | hRef a =>
    simp only [hIter] at h
    cases hl : storeLookup st a with
    | none => rw [hl] at h; exact Option.noConfusion h
    | some d =>
      rw [hl] at h
      simp only [Option.some.injEq] at h
      subst h
      intro r hr
      rw [hvListRefs_keys] at hr
      exact absurd hr (List.not_mem_nil r)
  | hBool b => simp [hIter] at h
  | hInt n => simp [hIter] at h
  | hPath s => simp [hIter] at h

/-- C10 counterexample: on a store where the child's property map (at
address 1) is {"a": {"x": {"y": 1}}, "b": {"x": {"z": 2}}} and the
default map (at address 6) binds both of its keys "a" and "b" to one
shared empty dict object, the merge mutates the CHILD's own nested dict
at address 4 from {"y": 1} to {"y": 1, "z": 2}: the deep copy preserves
the default's internal aliasing, the merge under key "a" installs a
reference to the child's dict inside the shared copy, and the merge
under key "b" then recurses through that reference into the child's
object.  So _merge_section does not leave the child argument
structurally unchanged. -/
theorem C10_counterexample :
    (hMergeSection 20 cexAliasStore 1 6).map (fun out => storeLookup out.1 4) =
      some (some [("y", HValue.hInt 1), ("z", HValue.hInt 2)]) ∧
    storeLookup cexAliasStore 4 = some [("y", HValue.hInt 1)] :=
  ⟨rfl, rfl⟩

theorem dcFrame : ∀ (B : Nat) (fuel : Nat),
    DcValOK B fuel ∧ DcListOK B fuel ∧ DcEntriesOK B fuel
  | B, 0 => by
    refine ⟨?_, ?_, ?_⟩
    · intro st memo v st2 memo2 v2 h
      exact absurd h (by simp [dcVal])
    · intro st memo l st2 memo2 l2 h
      exact absurd h (by simp [dcList])
    · intro st memo d st2 memo2 d2 h
      exact absurd h (by simp [dcEntries])
  | B, fuel + 1 => by
    obtain ⟨ihV, ihL, ihE⟩ := dcFrame B fuel
    refine ⟨?_, ?_, ?_⟩
    · intro st memo v st2 memo2 v2 h hB hmemo hhi
      cases v with
      | hBool b =>
        simp only [dcVal, Option.some.injEq, Prod.mk.injEq] at h
        obtain ⟨rfl, rfl, rfl⟩ := h
        exact ⟨fun a _ => rfl, Nat.le_refl _, hmemo, hhi,
          fun r hr => absurd hr (List.not_mem_nil r)⟩
      | hInt n =>
        simp only [dcVal, Option.some.injEq, Prod.mk.injEq] at h
        obtain ⟨rfl, rfl, rfl⟩ := h
        exact ⟨fun a _ => rfl, Nat.le_refl _, hmemo, hhi,
          fun r hr => absurd hr (List.not_mem_nil r)⟩
      | hStr s =>
        simp only [dcVal, Option.some.injEq, Prod.mk.injEq] at h
        obtain ⟨rfl, rfl, rfl⟩ := h
        exact ⟨fun a _ => rfl, Nat.le_refl _, hmemo, hhi,
          fun r hr => absurd hr (List.not_mem_nil r)⟩
      | hPath s =>
        simp only [dcVal, Option.some.injEq, Prod.mk.injEq] at h
        obtain ⟨rfl, rfl, rfl⟩ := h
        exact ⟨fun a _ => rfl, Nat.le_refl _, hmemo, hhi,
          fun r hr => absurd hr (List.not_mem_nil r)⟩
      | hList l =>
        simp only [dcVal] at h
        cases hdl : dcList fuel st memo l with
        | none => rw [hdl] at h; exact Option.noConfusion h
        | some res =>
          obtain ⟨st', memo', l'⟩ := res
          rw [hdl] at h
          simp only [Option.some.injEq, Prod.mk.injEq] at h
          obtain ⟨rfl, rfl, rfl⟩ := h
          obtain ⟨hf, hm, hmo, hhi2, hrefs⟩ := ihL st memo l st' memo' l' hdl hB hmemo hhi
          exact ⟨hf, hm, hmo, hhi2, hrefs⟩
      | hRef a =>
        simp only [dcVal] at h
        cases hml : memoLookup memo a with
        | some b =>
          rw [hml] at h
          simp only [Option.some.injEq, Prod.mk.injEq] at h
          obtain ⟨rfl, rfl, rfl⟩ := h
          refine ⟨fun x _ => rfl, Nat.le_refl _, hmemo, hhi, ?_⟩
          intro r hr
          have hrb : r = b := List.mem_singleton.mp hr
          rw [hrb]
          exact hmemo (a, b) (memoLookup_mem hml)
        | none =>
          rw [hml] at h
          simp only [] at h
          cases hsl : storeLookup st a with
          | none => rw [hsl] at h; exact Option.noConfusion h
          | some d =>
            rw [hsl] at h
            simp only [] at h
            cases hde : dcEntries fuel ((freshAddr st, []) :: st)
                ((a, freshAddr st) :: memo) d with
            | none => rw [hde] at h; exact Option.noConfusion h
            | some res =>
              obtain ⟨st', memo', d'⟩ := res
              rw [hde] at h
              simp only [Option.some.injEq, Prod.mk.injEq] at h
              obtain ⟨rfl, rfl, rfl⟩ := h
              have hfr : freshAddr ((freshAddr st, []) :: st) = freshAddr st + 1 := by
                rw [freshAddr_cons]
                exact Nat.max_eq_left (Nat.le_succ _)
              have hBc : B ≤ freshAddr ((freshAddr st, []) :: st) := by
                rw [hfr]
                exact Nat.le_trans hB (Nat.le_succ _)
              have hmc : MemoHi B ((a, freshAddr st) :: memo) := by
                intro q hq
                rcases List.mem_cons.mp hq with h1 | h2
                · rw [h1]
                  exact hB
                · exact hmemo q h2
              have hhc : StoreHi B ((freshAddr st, []) :: st) := by
                intro x dx hx hlx
                simp only [storeLookup] at hlx
                by_cases hxf : x = freshAddr st
                · rw [if_pos hxf] at hlx
                  cases hlx
                  intro r hr
                  exact absurd hr (List.not_mem_nil r)
                · rw [if_neg hxf] at hlx
                  exact hhi x dx hx hlx
              obtain ⟨hf, hm, hmo, hhi2, hrefs⟩ := ihE _ _ _ _ _ _ hde hBc hmc hhc
              refine ⟨?_, ?_, hmo, ?_, ?_⟩
              · intro x hx
                have hxne : x ≠ freshAddr st :=
                  Nat.ne_of_lt (Nat.lt_of_lt_of_le hx hB)
                rw [storeSet_lookup_ne hxne, hf x hx]
                simp only [storeLookup]
                rw [if_neg hxne]
              · rw [freshAddr_storeSet]
                have hm2 : freshAddr st + 1 ≤ freshAddr st' := by
                  rw [← hfr]
                  exact hm
                exact Nat.le_trans (Nat.le_succ _) hm2
              · intro x dx hx hlx
                by_cases hxf : x = freshAddr st
                · rw [hxf, storeSet_lookup_self] at hlx
                  cases hl2 : storeLookup st' (freshAddr st) with
                  | none => rw [hl2] at hlx; exact Option.noConfusion hlx
                  | some dd =>
                    rw [hl2] at hlx
                    simp only [Option.map_some', Option.some.injEq] at hlx
                    subst hlx
                    exact hrefs
                · rw [storeSet_lookup_ne hxf] at hlx
                  exact hhi2 x dx hx hlx
              · intro r hr
                have hrb : r = freshAddr st := List.mem_singleton.mp hr
                rw [hrb]
                exact hB
    · intro st memo l st2 memo2 l2 h hB hmemo hhi
      cases l with
      | nil =>
        simp only [dcList, Option.some.injEq, Prod.mk.injEq] at h
        obtain ⟨rfl, rfl, rfl⟩ := h
        exact ⟨fun a _ => rfl, Nat.le_refl _, hmemo, hhi,
          fun r hr => absurd hr (List.not_mem_nil r)⟩
      | cons v rest =>
        simp only [dcList] at h
        cases hdv : dcVal fuel st memo v with
        | none => rw [hdv] at h; exact Option.noConfusion h
        | some res1 =>
          obtain ⟨st', memo', v'⟩ := res1
          rw [hdv] at h
          simp only [] at h
          cases hdr : dcList fuel st' memo' rest with
          | none => rw [hdr] at h; exact Option.noConfusion h
          | some res2 =>
            obtain ⟨st3, memo3, rest2⟩ := res2
            rw [hdr] at h
            simp only [Option.some.injEq, Prod.mk.injEq] at h
            obtain ⟨rfl, rfl, rfl⟩ := h
            obtain ⟨hf1, hm1, hmo1, hhi1, hrefs1⟩ := ihV _ _ _ _ _ _ hdv hB hmemo hhi
            obtain ⟨hf2, hm2, hmo2, hhi2, hrefs2⟩ :=
              ihL _ _ _ _ _ _ hdr (Nat.le_trans hB hm1) hmo1 hhi1
            refine ⟨?_, Nat.le_trans hm1 hm2, hmo2, hhi2, ?_⟩
            · intro a ha
              rw [hf2 a ha, hf1 a ha]
            · intro r hr
              rcases List.mem_append.mp hr with h1 | h2
              · exact hrefs1 r h1
              · exact hrefs2 r h2
    · intro st memo d st2 memo2 d2 h hB hmemo hhi
      cases d with
      | nil =>
        simp only [dcEntries, Option.some.injEq, Prod.mk.injEq] at h
        obtain ⟨rfl, rfl, rfl⟩ := h
        exact ⟨fun a _ => rfl, Nat.le_refl _, hmemo, hhi,
          fun r hr => absurd hr (List.not_mem_nil r)⟩
      | cons e rest =>
        obtain ⟨k, v⟩ := e
        simp only [dcEntries] at h
        cases hdv : dcVal fuel st memo v with
        | none => rw [hdv] at h; exact Option.noConfusion h
        | some res1 =>
          obtain ⟨st', memo', v'⟩ := res1
          rw [hdv] at h
          simp only [] at h
          cases hdr : dcEntries fuel st' memo' rest with
          | none => rw [hdr] at h; exact Option.noConfusion h
          | some res2 =>
            obtain ⟨st3, memo3, rest2⟩ := res2
            rw [hdr] at h
            simp only [Option.some.injEq, Prod.mk.injEq] at h
            obtain ⟨rfl, rfl, rfl⟩ := h
            obtain ⟨hf1, hm1, hmo1, hhi1, hrefs1⟩ := ihV _ _ _ _ _ _ hdv hB hmemo hhi
            obtain ⟨hf2, hm2, hmo2, hhi2, hrefs2⟩ :=
              ihE _ _ _ _ _ _ hdr (Nat.le_trans hB hm1) hmo1 hhi1
            refine ⟨?_, Nat.le_trans hm1 hm2, hmo2, hhi2, ?_⟩
            · intro a ha
              rw [hf2 a ha, hf1 a ha]
            · intro r hr
              rcases List.mem_append.mp hr with h1 | h2
              · exact hrefs1 r h1
              · exact hrefs2 r h2

theorem mergeFrame : ∀ (B : Nat) (rs : List Nat) (fuel : Nat),
    MergeOK B rs fuel ∧ MergeListOK B rs fuel
  | B, rs, 0 => by
    constructor
    · intro st addr key v st2 h
      exact absurd h (by simp [hRecMerge])
    · intro st addr entries st2 h
      exact absurd h (by simp [hMergeList])
  | B, rs, fuel + 1 => by
    obtain ⟨ihM, ihL⟩ := mergeFrame B rs fuel
    constructor
    · intro st addr key v st2 h haddr hv hcl
      simp only [hRecMerge] at h
      cases hsl : storeLookup st addr with
      | none => rw [hsl] at h; exact Option.noConfusion h
      | some d =>
        rw [hsl] at h
        simp only [] at h
        have hover : ∀ (w : HValue), ValOK B rs (hvRefs w) →
            storeSet st addr (dictInsertH d key w) = st2 →
            (∀ a, ¬ InOK B rs a → storeLookup st2 a = storeLookup st a) ∧
            StClosed B rs st2 := by
          intro w hw heq
          subst heq
          constructor
          · intro a ha
            exact storeSet_lookup_ne (fun hh => ha (by rw [hh]; exact haddr))
          · intro x dx hx hlx
            by_cases hxa : x = addr
            · rw [hxa, storeSet_lookup_self, hsl] at hlx
              simp only [Option.map_some', Option.some.injEq] at hlx
              subst hlx
              intro r hr
              rcases dictRefs_insert r hr with h1 | h2
              · exact hcl addr d haddr hsl r h1
              · exact hw r h2
            · rw [storeSet_lookup_ne hxa] at hlx
              exact hcl x dx hx hlx
        cases hdk : dictLookupH d key with
        | none =>
          rw [hdk] at h
          simp only [Option.some.injEq] at h
          exact hover v hv h
        | some old =>
          rw [hdk] at h
          simp only [] at h
          cases v with
          | hBool b =>
            simp only [Option.some.injEq] at h
            exact hover (HValue.hBool b) (fun r hr => absurd hr (List.not_mem_nil r)) h
          | hInt n =>
            simp only [Option.some.injEq] at h
            exact hover (HValue.hInt n) (fun r hr => absurd hr (List.not_mem_nil r)) h
          | hStr s =>
            simp only [Option.some.injEq] at h
            exact hover (HValue.hStr s) (fun r hr => absurd hr (List.not_mem_nil r)) h
          | hPath s =>
            simp only [Option.some.injEq] at h
            exact hover (HValue.hPath s) (fun r hr => absurd hr (List.not_mem_nil r)) h
          | hList l =>
            cases hit : hIter st old with
            | none => rw [hit] at h; exact Option.noConfusion h
            | some tail =>
              rw [hit] at h
              simp only [Option.some.injEq] at h
              refine hover (HValue.hList (l ++ tail)) ?_ h
              intro r hr
              have hr2 : r ∈ hvListRefs l ++ hvListRefs tail := by
                rw [← hvListRefs_append]
                exact hr
              rcases List.mem_append.mp hr2 with h1 | h2
              · exact hv r h1
              · exact hcl addr d haddr hsl r (dictLookupH_refs hdk r (hIter_refs hit r h2))
          | hRef a2 =>
            simp only [] at h
            cases hs2 : storeLookup st a2 with
            | none => rw [hs2] at h; exact Option.noConfusion h
            | some d2 =>
              rw [hs2] at h
              simp only [] at h
              have hold : ∀ r ∈ hvRefs old, InOK B rs r :=
                fun r hr => hcl addr d haddr hsl r (dictLookupH_refs hdk r hr)
              have ha2 : InOK B rs a2 := hv a2 (List.mem_singleton.mpr rfl)
              have hd2 : ValOK B rs (dictRefs d2) := hcl a2 d2 ha2 hs2
              cases old with
              | hRef a3 =>
                simp only [] at h
                have ha3 : InOK B rs a3 := hold a3 (List.mem_singleton.mpr rfl)
                exact ihL st a3 d2 st2 h ha3 hd2 hcl
              | hBool b =>
                cases d2 with
                | nil =>
                  simp only [Option.some.injEq] at h
                  subst h
                  exact ⟨fun a _ => rfl, hcl⟩
                | cons ee rr => simp only [] at h; exact Option.noConfusion h
              | hInt n =>
                cases d2 with
                | nil =>
                  simp only [Option.some.injEq] at h
                  subst h
                  exact ⟨fun a _ => rfl, hcl⟩
                | cons ee rr => simp only [] at h; exact Option.noConfusion h
              | hStr s =>
                cases d2 with
                | nil =>
                  simp only [Option.some.injEq] at h
                  subst h
                  exact ⟨fun a _ => rfl, hcl⟩
                | cons ee rr => simp only [] at h; exact Option.noConfusion h
              | hPath s =>
                cases d2 with
                | nil =>
                  simp only [Option.some.injEq] at h
                  subst h
                  exact ⟨fun a _ => rfl, hcl⟩
                | cons ee rr => simp only [] at h; exact Option.noConfusion h
              | hList l2 =>
                cases d2 with
                | nil =>
                  simp only [Option.some.injEq] at h
                  subst h
                  exact ⟨fun a _ => rfl, hcl⟩
                | cons ee rr => simp only [] at h; exact Option.noConfusion h
    · intro st addr entries st2 h haddr hents hcl
      cases entries with
      | nil =>
        simp only [hMergeList, Option.some.injEq] at h
        subst h
        exact ⟨fun a _ => rfl, hcl⟩
      | cons e rest =>
        obtain ⟨k, v⟩ := e
        simp only [hMergeList] at h
        cases hm1 : hRecMerge fuel st addr k v with
        | none => rw [hm1] at h; exact Option.noConfusion h
        | some stm =>
          rw [hm1] at h
          simp only [] at h
          have hvv : ValOK B rs (hvRefs v) :=
            fun r hr => hents r (List.mem_append.mpr (Or.inl hr))
          obtain ⟨hf1, hcl1⟩ := ihM st addr k v stm hm1 haddr hvv hcl
          have hrest : ValOK B rs (dictRefs rest) :=
            fun r hr => hents r (List.mem_append.mpr (Or.inr hr))
          obtain ⟨hf2, hcl2⟩ := ihL stm addr rest st2 h haddr hrest hcl1
          exact ⟨fun a ha => (hf2 a ha).trans (hf1 a ha), hcl2⟩

/-- C10 (amended): _merge_section builds its result at a freshly
allocated address (the deep copy of the default map), and the only
pre-existing objects it can mutate are those reachable from the child
map: for any reference-closed address set rs covering the child dict's
references, every allocated address outside rs is left with exactly the
dict it held before the merge.  In particular the child's top-level
dict and the default map itself are never written when they are not in
such a reachable set; the claim's stronger reading — that the child is
NEVER mutated — is refuted by C10_counterexample, where internal
aliasing inside the default map lets the merge write into a dict owned
by the child. -/
theorem C10_frame (fuel : Nat) (st : Store) (childAddr defaultAddr : Nat)
    (rs : List Nat) (out : Store × Nat)
    (hrun : hMergeSection fuel st childAddr defaultAddr = some out)
    (hchild : ∀ r ∈ dictRefs ((storeLookup st childAddr).getD []), r ∈ rs)
    (hclosed : ∀ a ∈ rs, ∀ r ∈ dictRefs ((storeLookup st a).getD []), r ∈ rs)
    (hlt : ∀ a ∈ rs, a < freshAddr st) :
    freshAddr st ≤ out.2 ∧
    ∀ a, a < freshAddr st → a ∉ rs → storeLookup out.1 a = storeLookup st a := by
  cases fuel with
  | zero => exact absurd hrun (by simp [hMergeSection])
  | succ n =>
    simp only [hMergeSection] at hrun
    cases hdc : dcVal n st [] (HValue.hRef defaultAddr) with
    | none => rw [hdc] at hrun; exact Option.noConfusion hrun
    | some res =>
      obtain ⟨st2, memo2, v2⟩ := res
      rw [hdc] at hrun
      cases v2 with
      | hBool b => exact Option.noConfusion hrun
      | hInt nn => exact Option.noConfusion hrun
      | hStr s => exact Option.noConfusion hrun
      | hPath s => exact Option.noConfusion hrun
      | hList l => exact Option.noConfusion hrun
      | hRef newAddr =>
        simp only [] at hrun
        cases hcd : storeLookup st2 childAddr with
        | none => rw [hcd] at hrun; exact Option.noConfusion hrun
        | some childD =>
          rw [hcd] at hrun
          simp only [] at hrun
          cases hml : hMergeList n st2 newAddr childD with
          | none => rw [hml] at hrun; exact Option.noConfusion hrun
          | some st3 =>
            rw [hml] at hrun
            simp only [Option.some.injEq] at hrun
            subst hrun
            obtain ⟨hD, hDl, hDe⟩ := dcFrame (freshAddr st) n
            have hsthi : StoreHi (freshAddr st) st := by
              intro a d ha hl
              exact absurd (storeLookup_lt_fresh hl) (Nat.not_lt.mpr ha)
            obtain ⟨hf, hm, hmo, hhi2, hrefs⟩ :=
              hD st [] (HValue.hRef defaultAddr) st2 memo2 (HValue.hRef newAddr) hdc
                (Nat.le_refl _) (fun q hq => absurd hq (List.not_mem_nil q)) hsthi
            have hBnew : freshAddr st ≤ newAddr :=
              hrefs newAddr (List.mem_singleton.mpr rfl)
            have hcl2 : StClosed (freshAddr st) rs st2 := by
              intro a d ha hl
              rcases ha with hge | hmem
              · intro r hr
                exact Or.inl (hhi2 a d hge hl r hr)
              · have halt : a < freshAddr st := hlt a hmem
                rw [hf a halt] at hl
                have h4 : ∀ r ∈ dictRefs d, r ∈ rs := by
                  intro r hr
                  exact hclosed a hmem r (by rw [hl]; exact hr)
                intro r hr
                exact Or.inr (h4 r hr)
            have hchildOK : ValOK (freshAddr st) rs (dictRefs childD) := by
              by_cases hclt : childAddr < freshAddr st
              · have heq : storeLookup st childAddr = some childD := by
                  rw [← hf childAddr hclt]
                  exact hcd
                intro r hr
                exact Or.inr (hchild r (by rw [heq]; exact hr))
              · have hge : freshAddr st ≤ childAddr := Nat.le_of_not_lt hclt
                intro r hr
                exact Or.inl (hhi2 childAddr childD hge hcd r hr)
            obtain ⟨hMg, hMl⟩ := mergeFrame (freshAddr st) rs n
            obtain ⟨hf3, hcl3⟩ := hMl st2 newAddr childD st3 hml (Or.inl hBnew) hchildOK hcl2
            refine ⟨hBnew, ?_⟩
            intro a ha hnotrs
            have hnin : ¬ InOK (freshAddr st) rs a := by
              intro hin
              rcases hin with h1 | h2
              · exact absurd ha (Nat.not_lt.mpr h1)
              · exact hnotrs h2
            show storeLookup st3 a = storeLookup st a
            rw [hf3 a hnin]
            exact hf a ha

/-- Closed instance of C10_frame: merging a child {"a": 3} at address 1
under an empty default at address 2 allocates the result at the fresh
address 3 and leaves the dict at address 2 untouched. -/
theorem C10_witness :
    hMergeSection 10 [(1, [("a", HValue.hInt 3)]), (2, [])] 1 2 =
      some ([(3, [("a", HValue.hInt 3)]), (1, [("a", HValue.hInt 3)]), (2, [])], 3) ∧
    freshAddr [(1, [("a", HValue.hInt 3)]), (2, [])] ≤
      (([(3, [("a", HValue.hInt 3)]), (1, [("a", HValue.hInt 3)]), (2, [])], 3) :
        Store × Nat).2 ∧
    storeLookup (([(3, [("a", HValue.hInt 3)]), (1, [("a", HValue.hInt 3)]),
        (2, [])], 3) : Store × Nat).1 2 =
      storeLookup [(1, [("a", HValue.hInt 3)]), (2, [])] 2 := by
  have h := C10_frame 10 [(1, [("a", HValue.hInt 3)]), (2, [])] 1 2 [1]
    ([(3, [("a", HValue.hInt 3)]), (1, [("a", HValue.hInt 3)]), (2, [])], 3)
    rfl (by decide) (by decide) (by decide)
  exact ⟨rfl, h.1, h.2 2 (by decide) (by decide)⟩
